import Mathlib

/-!
Shallow embedding of the core address/prefix arithmetic engine of the
subnet-tree-calculator repository (src/core/parser.ts, calculations.ts,
transformations.ts, set-operations.ts, vlsm.ts), together with theorems
settling the frozen claims about it.

Conventions of the embedding:
* JavaScript `bigint` values (addresses, masks, counts) are modelled as `Nat`;
  all of them are non-negative in the source.
* JavaScript `number` values that the source validates to be non-negative
  integers (prefix lengths, split counts, host counts) are modelled as `Nat`;
  where a subtraction can go negative in the source the embedding uses `Int`.
* Thrown `Error`s become `Except String`; the exact message text is kept short.
* The source field `prefix` of `NormalisedCidr` is named `prefixLen` here
  because `prefix` is a reserved word in Lean.
* Loops are modelled by structural recursion (with an explicit fuel counter
  where the measure is not structural) so that all definitions compute.
-/

deriving instance DecidableEq for Except

namespace SubnetCalc

abbrev Err := String

/-- `NormalisedCidr` from core/types.ts: `{version: 4|6, bits: 32|128,
network: bigint, prefix: number}`.  `version` and `bits` are kept as plain
naturals; validity (`version = 4 ∧ bits = 32` or `version = 6 ∧ bits = 128`,
`prefixLen ≤ bits`, `network < 2^bits`) is a separate predicate. -/
structure NormalisedCidr where
  version : Nat
  bits : Nat
  network : Nat
  prefixLen : Nat
deriving Repr, DecidableEq

/-- The width/range part of the `NormalisedCidr` type invariant:
the prefix is in `[0, bits]` and the network fits in `bits` bits. -/
def Wf (c : NormalisedCidr) : Prop :=
  c.prefixLen ≤ c.bits ∧ c.network < 2 ^ c.bits

instance (c : NormalisedCidr) : Decidable (Wf c) := by
  unfold Wf; infer_instance

/-- `assertIntegerInRange` from core/utils.ts.  `Number.isInteger` is always
true for a `Nat`, so only the interval check remains. -/
def assertIntegerInRange (n min max : Nat) (msg : String) : Except Err Unit :=
  if ¬ (min ≤ n ∧ n ≤ max) then .error msg else .ok ()

/-- `maskFromPrefix(prefix, bits)` from core/parser.ts. -/
def maskFromPrefix (p bits : Nat) : Except Err Nat := do
  let _ ← assertIntegerInRange p 0 bits "Invalid prefix"
  if p = 0 then return 0
  else if p = bits then return (1 <<< bits) - 1
  else return ((1 <<< p) - 1) <<< (bits - p)

/-- `wildcardFromPrefix(prefix, bits)` from core/parser.ts. -/
def wildcardFromPrefix (p bits : Nat) : Except Err Nat := do
  let _ ← assertIntegerInRange p 0 bits "Invalid prefix"
  let hostBits := bits - p
  if hostBits = 0 then return 0
  else return (1 <<< hostBits) - 1

/-- The value computed by `maskFromPrefix` on in-range arguments. -/
def maskVal (p bits : Nat) : Nat :=
  if p = 0 then 0
  else if p = bits then (1 <<< bits) - 1
  else ((1 <<< p) - 1) <<< (bits - p)

/-- The value computed by `wildcardFromPrefix` on in-range arguments. -/
def wildcardVal (p bits : Nat) : Nat :=
  if bits - p = 0 then 0 else (1 <<< (bits - p)) - 1

theorem maskFromPrefix_ok {p bits : Nat} (h : p ≤ bits) :
    maskFromPrefix p bits = .ok (maskVal p bits) := by
  unfold maskFromPrefix maskVal assertIntegerInRange
  simp only [h, Nat.zero_le, and_self, not_true_eq_false, if_false, true_and]
  rcases eq_or_ne p 0 with h0 | h0
  · simp [h0, Except.instMonad, Except.bind, Except.pure]
  · rcases eq_or_ne p bits with hb | hb
    · subst hb
      simp [h0, Except.instMonad, Except.bind, Except.pure]
    · simp [h0, hb, Except.instMonad, Except.bind, Except.pure]

theorem wildcardFromPrefix_ok {p bits : Nat} (h : p ≤ bits) :
    wildcardFromPrefix p bits = .ok (wildcardVal p bits) := by
  unfold wildcardFromPrefix wildcardVal assertIntegerInRange
  simp only [h, Nat.zero_le, and_self, not_true_eq_false, if_false, true_and]
  rcases eq_or_ne (bits - p) 0 with h0 | h0 <;> simp [h0, Except.instMonad, Except.bind, Except.pure, apply_ite]

theorem maskVal_eq {p bits : Nat} (h : p ≤ bits) :
    maskVal p bits = 2 ^ bits - 2 ^ (bits - p) := by
  unfold maskVal
  rcases eq_or_ne p 0 with h0 | h0
  · simp [h0]
  · rcases eq_or_ne p bits with hb | hb
    · subst hb
      simp [h0, Nat.shiftLeft_eq]
    · have hlt : p < bits := lt_of_le_of_ne h hb
      simp only [h0, hb, if_false, Nat.shiftLeft_eq, one_mul]
      have : (2 ^ p - 1) * 2 ^ (bits - p) = 2 ^ p * 2 ^ (bits - p) - 2 ^ (bits - p) := by
        rw [Nat.sub_mul, one_mul]
      rw [this, ← pow_add, Nat.add_sub_cancel' h]

theorem wildcardVal_eq (p bits : Nat) :
    wildcardVal p bits = 2 ^ (bits - p) - 1 := by
  unfold wildcardVal
  split <;> simp_all [Nat.shiftLeft_eq]

/-- The mask invariant of `NormalisedCidr` (spec "Mask invariant"): the network
equals itself masked with `mask(prefix, bits)`, i.e. all host bits are zero. -/
def Canonical (c : NormalisedCidr) : Prop :=
  c.network = c.network &&& maskVal c.prefixLen c.bits

instance (c : NormalisedCidr) : Decidable (Canonical c) := by
  unfold Canonical; infer_instance

theorem maskVal_shift {p bits : Nat} (h : p ≤ bits) :
    maskVal p bits = (2 ^ p - 1) <<< (bits - p) := by
  unfold maskVal
  rcases eq_or_ne p 0 with h0 | h0
  · simp [h0]
  · rcases eq_or_ne p bits with hb | hb
    · subst hb
      simp [h0, Nat.shiftLeft_eq]
    · simp [h0, hb, Nat.shiftLeft_eq]

theorem and_maskVal {x p bits : Nat} (hx : x < 2 ^ bits) (hp : p ≤ bits) :
    x &&& maskVal p bits = 2 ^ (bits - p) * (x / 2 ^ (bits - p)) := by
  have hmask := maskVal_shift hp
  have hdiv : 2 ^ (bits - p) * (x / 2 ^ (bits - p)) = (x >>> (bits - p)) <<< (bits - p) := by
    simp [Nat.shiftLeft_eq, Nat.shiftRight_eq_div_pow, Nat.mul_comm]
  rw [hmask, hdiv]
  apply Nat.eq_of_testBit_eq
  intro j
  simp only [Nat.testBit_and, Nat.testBit_shiftLeft, Nat.testBit_shiftRight,
    Nat.testBit_two_pow_sub_one]
  by_cases hj : bits - p ≤ j
  · by_cases hjb : j < bits
    · have : j - (bits - p) < p := by omega
      have : (bits - p) + (j - (bits - p)) = j := by omega
      simp_all [ge_iff_le]
    · have hxj : x.testBit j = false :=
        Nat.testBit_lt_two_pow (lt_of_lt_of_le hx (Nat.pow_le_pow_right (by norm_num) (by omega)))
      have hxj' : x.testBit ((bits - p) + (j - (bits - p))) = false := by
        rwa [Nat.add_sub_cancel' hj]
      simp [ge_iff_le, hj, hxj, hxj']
  · simp [ge_iff_le, hj]

theorem canonical_iff_dvd {x p bits : Nat} (hx : x < 2 ^ bits) (hp : p ≤ bits) :
    x = x &&& maskVal p bits ↔ 2 ^ (bits - p) ∣ x := by
  rw [and_maskVal hx hp]
  constructor
  · intro h
    exact ⟨x / 2 ^ (bits - p), h⟩
  · intro h
    exact (Nat.mul_div_cancel' h).symm

theorem Canonical.dvd {c : NormalisedCidr} (hw : Wf c) (hc : Canonical c) :
    2 ^ (c.bits - c.prefixLen) ∣ c.network :=
  (canonical_iff_dvd hw.2 hw.1).mp hc

theorem canonical_of_dvd {c : NormalisedCidr} (hw : Wf c)
    (h : 2 ^ (c.bits - c.prefixLen) ∣ c.network) : Canonical c :=
  (canonical_iff_dvd hw.2 hw.1).mpr h

/-- An aligned block starting at or below `x` and reaching past it starts
exactly at `x` rounded down to the block size. -/
theorem block_eq_of_mem {k A x : Nat} (hA : 2 ^ k ∣ A) (h1 : A ≤ x)
    (h2 : x < A + 2 ^ k) : A = x - x % 2 ^ k := by
  obtain ⟨q, hq⟩ := hA
  have h3 : x % 2 ^ k = (x - A) % 2 ^ k := by
    conv_lhs => rw [show x = A + (x - A) by omega]
    rw [hq, Nat.mul_add_mod]
  have h4 : (x - A) % 2 ^ k = x - A := Nat.mod_eq_of_lt (by omega)
  omega

/-- Two aligned power-of-two blocks that share a point are nested: the larger
(or equal) block contains the smaller one. -/
theorem dyadic_nested {ka kb A B x : Nat} (hA : 2 ^ ka ∣ A) (hB : 2 ^ kb ∣ B)
    (hk : kb ≤ ka) (hxA1 : A ≤ x) (hxA2 : x < A + 2 ^ ka)
    (hxB1 : B ≤ x) (hxB2 : x < B + 2 ^ kb) :
    A ≤ B ∧ B + 2 ^ kb ≤ A + 2 ^ ka := by
  have hAeq := block_eq_of_mem hA hxA1 hxA2
  have hBeq := block_eq_of_mem hB hxB1 hxB2
  have hmm : x % 2 ^ ka % 2 ^ kb = x % 2 ^ kb :=
    Nat.mod_mod_of_dvd x (pow_dvd_pow 2 hk)
  set r := x % 2 ^ ka with hr
  set s := x % 2 ^ kb with hs
  have hsr : s ≤ r := by
    rw [← hmm]
    exact Nat.mod_le _ _
  have hrx : r ≤ x := Nat.mod_le _ _
  have hrlt : r < 2 ^ ka := Nat.mod_lt _ (Nat.two_pow_pos ka)
  have hgap : r - s + 2 ^ kb ≤ 2 ^ ka := by
    have hdiff : r - s = 2 ^ kb * (r / 2 ^ kb) := by
      have hdm := Nat.div_add_mod r (2 ^ kb)
      omega
    have hdivlt : r / 2 ^ kb < 2 ^ (ka - kb) := by
      rw [Nat.div_lt_iff_lt_mul (Nat.two_pow_pos kb)]
      calc r < 2 ^ ka := hrlt
        _ = 2 ^ (ka - kb) * 2 ^ kb := by rw [← pow_add]; congr 1; omega
    have : 2 ^ kb * (r / 2 ^ kb) + 2 ^ kb ≤ 2 ^ kb * 2 ^ (ka - kb) := by
      have := Nat.succ_le_of_lt hdivlt
      calc 2 ^ kb * (r / 2 ^ kb) + 2 ^ kb = 2 ^ kb * (r / 2 ^ kb + 1) := by ring
        _ ≤ 2 ^ kb * 2 ^ (ka - kb) := Nat.mul_le_mul_left _ this
    rw [hdiff]
    calc 2 ^ kb * (r / 2 ^ kb) + 2 ^ kb ≤ 2 ^ kb * 2 ^ (ka - kb) := this
      _ = 2 ^ ka := by rw [← pow_add]; congr 1; omega
  omega

/-! ### String helpers mirroring the JavaScript primitives used by the codec -/

/-- JavaScript `String.prototype.trim` whitespace (restricted to the ASCII
whitespace characters, which are the only ones relevant here). -/
def jsIsWs (c : Char) : Bool :=
  c = ' ' ∨ c = '\t' ∨ c = '\n' ∨ c = '\r' ∨ c = '\x0b' ∨ c = '\x0c'

def jsTrim (cs : List Char) : List Char :=
  ((cs.dropWhile jsIsWs).reverse.dropWhile jsIsWs).reverse

/-- JavaScript `s.split(sep)` for a single-character separator: keeps empty
pieces, and the empty string yields `[""]`. -/
def splitOnChar (sep : Char) : List Char → List (List Char)
  | [] => [[]]
  | c :: rest =>
    match splitOnChar sep rest with
    | g :: gs => if c = sep then [] :: g :: gs else (c :: g) :: gs
    | [] => [[c]]

/-- JavaScript `s.split('::')`: leftmost-first non-overlapping split on the
two-character separator. -/
def splitOnColonColon : List Char → List (List Char)
  | [] => [[]]
  | ':' :: ':' :: rest => [] :: splitOnColonColon rest
  | c :: rest =>
    match splitOnColonColon rest with
    | g :: gs => (c :: g) :: gs
    | [] => [[c]]

def isDigitCh (c : Char) : Bool := '0' ≤ c ∧ c ≤ '9'

/-- The character class of `/^[0-9a-f]{1,4}$/i`. -/
def isHexCh (c : Char) : Bool :=
  isDigitCh c ∨ ('a' ≤ c ∧ c ≤ 'f') ∨ ('A' ≤ c ∧ c ≤ 'F')

/-- Decimal value of a digit string (JavaScript `Number(p)` on an all-digit
string; exact, as all accepted values are small). -/
def decVal (cs : List Char) : Nat :=
  cs.foldl (fun n c => n * 10 + (c.toNat - 48)) 0

/-- Hex-digit value, accepting both cases as `parseInt(h, 16)` does. -/
def hexDigitVal (c : Char) : Nat :=
  if isDigitCh c then c.toNat - 48
  else if 'a' ≤ c ∧ c ≤ 'f' then c.toNat - 87
  else c.toNat - 55

/-- Value of a hex string (JavaScript `parseInt(h, 16)` on a valid hex string). -/
def hexVal (cs : List Char) : Nat :=
  cs.foldl (fun n c => n * 16 + hexDigitVal c) 0

/-- Digits of `n` in base `base`, most significant first (fuel-structural so
that it computes by kernel reduction; `fuel = n + 1` always suffices). -/
def digitsCore (base : Nat) : Nat → Nat → List Char
  | 0, _ => []
  | fuel + 1, n =>
    if n < base then [Nat.digitChar n]
    else digitsCore base fuel (n / base) ++ [Nat.digitChar (n % base)]

/-- JavaScript `n.toString()` for a natural number. -/
def decStr (n : Nat) : List Char := digitsCore 10 (n + 1) n

/-- JavaScript `n.toString(16)` for a natural number (lowercase hex). -/
def hexStr (n : Nat) : List Char := digitsCore 16 (n + 1) n

/-! ### Address codec (core/parser.ts) -/

/-- `isLikelyIpv6` from core/parser.ts. -/
def isLikelyIpv6 (s : List Char) : Bool := s.contains ':'

/-- `stripZoneIndex` from core/parser.ts: everything before the first `%`. -/
def stripZoneIndex (ip : List Char) : List Char := ip.takeWhile (fun c => c ≠ '%')

/-- The per-octet body of the `for` loop of `ipv4ToBigInt`: validate the
digit string and accumulate `n * 256 + v`. -/
def ipv4OctetStep (n : Nat) (p : List Char) : Except Err Nat := do
  if ¬ (p ≠ [] ∧ p.all isDigitCh) then
    throw "Invalid IPv4 address (octets must be 0-255)"
  let v := decVal p
  if v > 255 then throw "Invalid IPv4 address (octets must be 0-255)"
  pure (n * 256 + v)

/-- `ipv4ToBigInt(ip)` from core/parser.ts. -/
def ipv4ToBigInt (ip : String) : Except Err Nat := do
  let parts := splitOnChar '.' (jsTrim ip.data)
  if parts.length ≠ 4 then throw "Invalid IPv4 address (expected a.b.c.d)"
  parts.foldlM ipv4OctetStep 0

/-- `bigIntToIpv4(n)` from core/parser.ts. -/
def bigIntToIpv4 (n : Nat) : Except Err String := do
  if n > 0xffffffff then throw "IPv4 value out of range"
  let a := (n >>> 24) &&& 0xff
  let b := (n >>> 16) &&& 0xff
  let c := (n >>> 8) &&& 0xff
  let d := n &&& 0xff
  pure (String.mk (decStr a ++ '.' :: decStr b ++ '.' :: decStr c ++ '.' :: decStr d))

/-- `expandEmbeddedIpv4(ipv6)` from core/parser.ts: replaces a trailing dotted
IPv4 literal by two hextets. -/
def expandEmbeddedIpv4 (ipv6 : List Char) : Except Err (List Char) := do
  if ¬ ipv6.contains '.' then return ipv6
  if ¬ ipv6.contains ':' then throw "Invalid IPv6 address"
  -- head = slice up to the last colon, tail = slice after it
  let revTail := ipv6.reverse.takeWhile (fun c => c ≠ ':')
  let head := (ipv6.reverse.drop (revTail.length + 1)).reverse
  let tail := revTail.reverse
  let v4 ← ipv4ToBigInt (String.mk tail)
  let hi := (v4 >>> 16) &&& 0xffff
  let lo := v4 &&& 0xffff
  let sep : List Char := if head.getLast? = some ':' then [] else [':']
  return head ++ sep ++ hexStr hi ++ ':' :: hexStr lo

/-- The per-hextet body of the `for` loop of `hextetsToBigInt`. -/
def hextetStep (n : Nat) (h : List Char) : Except Err Nat := do
  if h.length = 0 then throw "Invalid IPv6 address"
  if ¬ (1 ≤ h.length ∧ h.length ≤ 4 ∧ h.all isHexCh) then
    throw "Invalid IPv6 address (bad hextet)"
  let v := hexVal h
  if v > 0xffff then throw "Invalid IPv6 address (hextet out of range)"
  pure ((n <<< 16) + v)

/-- `hextetsToBigInt(hextets)` from core/parser.ts. -/
def hextetsToBigInt (hextets : List (List Char)) : Except Err Nat := do
  hextets.foldlM hextetStep 0

/-- The `::`-expansion and hextet-count validation of `ipv6ToBigInt`
(core/parser.ts): produces the list of exactly 8 textual hextets that the
source then feeds to `hextetsToBigInt`. -/
def ipv6Hextets (s : List Char) : Except Err (List (List Char)) :=
  let parts := splitOnColonColon s
  if parts.length > 2 then throw "Invalid IPv6 address (too many '::')"
  else
    let leftPart := parts.headD []
    let rightPart := if parts.length = 2 then (parts.drop 1).headD [] else []
    let left := if leftPart.length ≠ 0 then splitOnChar ':' leftPart else []
    let right := if rightPart.length ≠ 0 then splitOnChar ':' rightPart else []
    if parts.length = 1 then
      if left.length ≠ 8 then throw "Invalid IPv6 address (expected 8 hextets)"
      else pure left
    else
      let total := left.length + right.length
      if total > 8 then throw "Invalid IPv6 address (too many hextets)"
      else
        let missing := 8 - total
        let full := left ++ (List.replicate missing ['0']) ++ right
        if full.length ≠ 8 then throw "Invalid IPv6 address"
        else pure full

/-- `ipv6ToBigInt(ip)` from core/parser.ts. -/
def ipv6ToBigInt (ip : String) : Except Err Nat := do
  let s0 := (stripZoneIndex (jsTrim ip.data)).map Char.toLower
  if s0.length = 0 then throw "Invalid IPv6 address"
  let s ← expandEmbeddedIpv4 s0
  let hextets ← ipv6Hextets s
  hextetsToBigInt hextets

/-- The hextet array built by the first loop of `bigIntToIpv6`
(`hextets[i] = x & 0xffff; x >>= 16n` filling indices 7 down to 0). -/
def buildHextets : Nat → Nat → List Nat
  | _, 0 => []
  | x, k + 1 => buildHextets (x >>> 16) k ++ [x &&& 0xffff]

def hextetsOf (n : Nat) : List Nat := buildHextets n 8

def bestLenOf : Option (Nat × Nat) → Nat
  | none => 0
  | some b => b.2

/-- The zero-run scan of `bigIntToIpv6` (`bestStart`/`bestLen` loop); `none`
plays the role of `bestStart = -1`.  Fuel-structural; the list length is
always enough fuel. -/
def findBestRunAux : Nat → Nat → List Nat → Option (Nat × Nat) → Option (Nat × Nat)
  | 0, _, _, best => best
  | fuel + 1, i, hs, best =>
    match hs with
    | [] => best
    | h :: t =>
      if h = 0 then
        let len := 1 + (t.takeWhile (fun v => v == 0)).length
        let best' := if 2 ≤ len ∧ bestLenOf best < len then some (i, len) else best
        findBestRunAux fuel (i + len) (t.dropWhile (fun v => v == 0)) best'
      else
        findBestRunAux fuel (i + 1) t best

def findBestRun (hs : List Nat) : Option (Nat × Nat) :=
  findBestRunAux hs.length 0 hs none

/-- JavaScript `pieces.join(':')`. -/
def joinColon : List (List Char) → List Char
  | [] => []
  | [p] => p
  | p :: ps => p ++ ':' :: joinColon ps

/-- The rendering tail of `bigIntToIpv6` (everything after the run scan). -/
def renderIpv6 (hextets : List Nat) (best : Option (Nat × Nat)) : String :=
  match best with
  | none => String.mk (joinColon (hextets.map hexStr))
  | some (bestStart, bestLen) =>
    let before := (hextets.take bestStart).map hexStr
    let after := (hextets.drop (bestStart + bestLen)).map hexStr
    if before = [] ∧ after = [] then "::"
    else
      let left := joinColon before
      let right := joinColon after
      if left = [] then String.mk (':' :: ':' :: right)
      else if right = [] then String.mk (left ++ [':', ':'])
      else String.mk (left ++ ':' :: ':' :: right)

/-- `bigIntToIpv6(n)` from core/parser.ts. -/
def bigIntToIpv6 (n : Nat) : Except Err String := do
  if n > 2 ^ 128 - 1 then throw "IPv6 value out of range"
  pure (renderIpv6 (hextetsOf n) (findBestRun (hextetsOf n)))

/-- `formatAddress(version, n)` from core/parser.ts. -/
def formatAddress (version : Nat) (n : Nat) : Except Err String :=
  if version = 6 then bigIntToIpv6 n else bigIntToIpv4 n

/-- `formatCidr(version, network, prefix)` from core/parser.ts. -/
def formatCidr (version : Nat) (network : Nat) (p : Nat) : Except Err String := do
  let addr ← formatAddress version network
  pure (addr ++ "/" ++ String.mk (decStr p))

/-! ### CIDR normalizer (core/parser.ts) -/

/-- `parseCidr(input)` from core/parser.ts. -/
def parseCidr (input : String) : Except Err NormalisedCidr := do
  let trimmed := jsTrim input.data
  let parts := splitOnChar '/' trimmed
  if parts.length ≠ 2 then throw "Invalid CIDR (expected address/prefix)"
  let addrStr := jsTrim (parts.headD [])
  let prefixStr := jsTrim ((parts.drop 1).headD [])
  -- `if (!addrStr || !prefixStr)`: the empty string is falsy
  if addrStr.length = 0 ∨ prefixStr.length = 0 then
    throw "Invalid CIDR (expected address/prefix)"
  if ¬ (prefixStr ≠ [] ∧ prefixStr.all isDigitCh) then throw "Invalid CIDR prefix"
  let p := decVal prefixStr
  let version := if isLikelyIpv6 addrStr then 6 else 4
  let bits := if version = 6 then 128 else 32
  let _ ← assertIntegerInRange p 0 bits "Invalid CIDR prefix range"
  let ip ← if version = 6 then ipv6ToBigInt (String.mk addrStr)
           else ipv4ToBigInt (String.mk addrStr)
  let mask ← maskFromPrefix p bits
  return ⟨version, bits, ip &&& mask, p⟩

/-- The leading-ones counting loop of `parseCidrWithNetmask`: `acc` is the
running count `i`, the fuel starts at `bits`. -/
def cloAux (v bits : Nat) : Nat → Nat → Nat
  | 0, acc => acc
  | rem + 1, acc =>
    if v &&& ((1 <<< (bits - 1)) >>> acc) ≠ 0 then cloAux v bits rem (acc + 1) else acc

def countLeadingOnes (v bits : Nat) : Nat := cloAux v bits bits 0

/-- `parseCidrWithNetmask(address, netmask)` from core/parser.ts. -/
def parseCidrWithNetmask (address netmask : String) : Except Err NormalisedCidr := do
  let version := if isLikelyIpv6 address.data then 6 else 4
  let bits := if version = 6 then 128 else 32
  let ip ← if version = 6 then ipv6ToBigInt address else ipv4ToBigInt address
  let maskValue ← if version = 6 then ipv6ToBigInt netmask else ipv4ToBigInt netmask
  let p := countLeadingOnes maskValue bits
  let expectedMask ← maskFromPrefix p bits
  if maskValue ≠ expectedMask then throw "Invalid netmask (must be contiguous ones)"
  return ⟨version, bits, ip &&& maskValue, p⟩

/-- The trailing-zeros counting loop of `rangeToMinimalPrefixes`
(`while trailingZeros < bits && (temp & 1n) === 0n`). -/
def tzCountAux : Nat → Nat → Nat → Nat
  | 0, _, acc => acc
  | rem + 1, temp, acc =>
    if temp &&& 1 = 0 then tzCountAux rem (temp >>> 1) (acc + 1) else acc

def tzCount (x bits : Nat) : Nat := tzCountAux bits x 0

/-- One step of the greedy loop of `rangeToMinimalPrefixes`: the chosen
prefix for the block starting at `current` (the `for p` loop with `break`,
with the loop variable initialised to `bits`). -/
def rangePickPrefix (current endInt bits : Nat) : Nat :=
  let tz := tzCount current bits
  ((List.range' (bits - tz) (tz + 1)).find?
    (fun p => current + (1 <<< (bits - p)) - 1 ≤ endInt)).getD bits

/-- The `while (current <= endInt)` loop of `rangeToMinimalPrefixes`.
Fuel-structural; each iteration advances `current` by at least 1, so
`endInt + 2 - start` fuel is always enough. -/
def rangeLoop (version bits endInt : Nat) : Nat → Nat → List NormalisedCidr
  | 0, _ => []
  | fuel + 1, current =>
    if current > endInt then []
    else
      let p := rangePickPrefix current endInt bits
      let blockSize := 1 <<< (bits - p)
      -- the `if (current === 0n) break` overflow guard of the source can
      -- never fire over Nat (blockSize ≥ 1), but is kept for fidelity
      ⟨version, bits, current, p⟩ ::
        (if current + blockSize = 0 then []
         else rangeLoop version bits endInt fuel (current + blockSize))

/-- `rangeToMinimalPrefixes(start, end)` from core/parser.ts. -/
def rangeToMinimalPrefixes (start endS : String) : Except Err (List NormalisedCidr) := do
  let version := if isLikelyIpv6 start.data then 6 else 4
  let bits := if version = 6 then 128 else 32
  let startInt ← if version = 6 then ipv6ToBigInt start else ipv4ToBigInt start
  let endInt ← if version = 6 then ipv6ToBigInt endS else ipv4ToBigInt endS
  if startInt > endInt then throw "Invalid range: start must be <= end"
  return rangeLoop version bits endInt (endInt + 2 - startInt) startInt

/-- `AddressClass` from core/types.ts. -/
inductive AddressClass
  | PRIVATE | LOOPBACK | LINK_LOCAL | MULTICAST | DOCUMENTATION | RESERVED
  | UNIQUE_LOCAL | GLOBAL_UNICAST | UNSPECIFIED | BROADCAST | PUBLIC
deriving Repr, DecidableEq

/-- `classifyAddress(address)` from core/parser.ts.  The source wraps the
whole body in `try/catch` returning the classes collected so far; the only
statement that can throw is the initial parse, so the catch amounts to
returning `[]` on a parse failure. -/
def classifyAddress (address : String) : List AddressClass :=
  if isLikelyIpv6 address.data then
    match ipv6ToBigInt address with
    | .error _ => []
    | .ok ip =>
      if ip = 0 then [.UNSPECIFIED]
      else if ip = 1 then [.LOOPBACK]
      else if ip >>> 120 = 0xff then [.MULTICAST]
      else if ip >>> 118 = 0x3fa then [.LINK_LOCAL]
      else if ip >>> 121 = 0x7e ∨ ip >>> 121 = 0x7f then [.UNIQUE_LOCAL, .PRIVATE]
      else if ip >>> 96 = 0x20010db8 then [.DOCUMENTATION]
      else if ip >>> 125 = 0x1 then [.GLOBAL_UNICAST, .PUBLIC]
      else [.RESERVED]
  else
    match ipv4ToBigInt address with
    | .error _ => []
    | .ok ip =>
      if ip = 0 then [.UNSPECIFIED]
      else if ip >>> 24 = 127 then [.LOOPBACK]
      else if ip >>> 28 = 0xe then [.MULTICAST]
      else if ip >>> 28 = 0xf ∧ ip ≠ 0xffffffff then [.RESERVED]
      else if ip = 0xffffffff then [.BROADCAST]
      else if ip >>> 24 = 10 then [.PRIVATE]
      else if ip >>> 20 = 0xac1 then [.PRIVATE]
      else if ip >>> 16 = 0xc0a8 then [.PRIVATE]
      else if ip >>> 16 = 0xa9fe then [.LINK_LOCAL]
      else if ip >>> 8 = 0xc00002 ∨ ip >>> 8 = 0xc63364 ∨ ip >>> 8 = 0xcb0071 then
        [.DOCUMENTATION]
      else [.PUBLIC]

/-! ### Metadata engine (core/calculations.ts) -/

/-- `SubnetMeta` from core/types.ts.  The source field `prefix` is
`prefixLen` here; address-valued fields are formatted strings as in the
source, `broadcast` is `none` exactly where the source leaves it
`undefined`. -/
structure SubnetMeta where
  version : Nat
  bits : Nat
  cidr : String
  network : String
  prefixLen : Nat
  netmask : String
  wildcard : String
  broadcast : Option String
  lastAddress : String
  addressCount : Nat
  usableCount : Nat
  firstUsable : Option String
  lastUsable : Option String
deriving Repr, DecidableEq

/-- `subnetMeta(network, prefix, version, bits)` from core/calculations.ts. -/
def subnetMeta (network p version bits : Nat) : Except Err SubnetMeta := do
  let _ ← assertIntegerInRange p 0 bits "Invalid prefix"
  let mask ← maskFromPrefix p bits
  let wildcard ← wildcardFromPrefix p bits
  let last := network ||| wildcard
  let addressCount := 1 <<< (bits - p)
  let (usableCount, firstUsable, lastUsable) :=
    if version = 4 then
      if p = 32 then (1, some network, some network)
      else if p = 31 then (2, some network, some last)
      else (addressCount - 2, some (network + 1), some (last - 1))
    else
      (addressCount, some network, some last)
  let cidrS ← formatCidr version network p
  let networkS ← formatAddress version network
  let netmaskS ← formatAddress version mask
  let wildcardS ← formatAddress version wildcard
  let broadcastS ← if version = 4 then do
      let s ← formatAddress version last
      pure (some s)
    else pure none
  let lastS ← formatAddress version last
  let firstUsableS ← match firstUsable with
    | none => pure none
    | some v => do
      let s ← formatAddress version v
      pure (some s)
  let lastUsableS ← match lastUsable with
    | none => pure none
    | some v => do
      let s ← formatAddress version v
      pure (some s)
  return { version := version, bits := bits, cidr := cidrS, network := networkS,
           prefixLen := p, netmask := netmaskS, wildcard := wildcardS,
           broadcast := broadcastS, lastAddress := lastS,
           addressCount := addressCount, usableCount := usableCount,
           firstUsable := firstUsableS, lastUsable := lastUsableS }

/-! ### Transformation engine (core/transformations.ts) -/

/-- `Math.log2` on the powers of two accepted by `splitIntoN`: floor base-2
logarithm, fuel-structural (`fuel = n` always suffices). -/
def log2Fuel : Nat → Nat → Nat
  | 0, _ => 0
  | fuel + 1, n => if 2 ≤ n then log2Fuel fuel (n / 2) + 1 else 0

def jsLog2 (n : Nat) : Nat := log2Fuel n n

/-- `Math.ceil(Math.log2(n))` for a positive natural, fuel-structural.  It
agrees with Mathlib's ceiling logarithm `Nat.clog 2` (see
`ceilLog2_eq_clog`). -/
def clogFuel : Nat → Nat → Nat
  | 0, _ => 0
  | fuel + 1, n => if n ≤ 1 then 0 else clogFuel fuel ((n + 1) / 2) + 1

def ceilLog2 (n : Nat) : Nat := clogFuel n n

theorem clogFuel_eq_clog : ∀ fuel n, n ≤ fuel → clogFuel fuel n = Nat.clog 2 n := by
  intro fuel
  induction fuel with
  | zero =>
    intro n hn
    interval_cases n
    rw [show clogFuel 0 0 = 0 from rfl, Nat.clog_of_right_le_one (by norm_num)]
  | succ fuel ih =>
    intro n hn
    unfold clogFuel
    by_cases h1 : n ≤ 1
    · rw [if_pos h1, Nat.clog_of_right_le_one h1]
    · have h2 : 2 ≤ n := by omega
      have hrec : (n + 1) / 2 ≤ fuel := by omega
      rw [if_neg h1, ih ((n + 1) / 2) hrec, Nat.clog_of_two_le (by norm_num) h2]
      norm_num

/-- Sanity check: `ceilLog2` is the ceiling base-2 logarithm. -/
theorem ceilLog2_eq_clog (n : Nat) : ceilLog2 n = Nat.clog 2 n :=
  clogFuel_eq_clog n n le_rfl

/-- `splitBinary(cidr)` from core/transformations.ts. -/
def splitBinary (cidr : NormalisedCidr) : Except Err (NormalisedCidr × NormalisedCidr) := do
  if cidr.prefixLen ≥ cidr.bits then
    throw "Cannot split - already at maximum prefix length"
  let childPrefix := cidr.prefixLen + 1
  let childSize := 1 <<< (cidr.bits - childPrefix)
  return (⟨cidr.version, cidr.bits, cidr.network, childPrefix⟩,
          ⟨cidr.version, cidr.bits, cidr.network + childSize, childPrefix⟩)

/-- `splitIntoN(cidr, n)` from core/transformations.ts.  `n` is `Int` because
the VLSM allocator can pass it a negative 32-bit-wrapped shift result;
`Math.log2` is exact on the powers of two that survive the checks, so it is
modelled by the exact `jsLog2`. -/
def splitIntoN (cidr : NormalisedCidr) (n : Int) : Except Err (List NormalisedCidr) := do
  if n ≤ 0 then throw "N must be a positive integer"
  let m := n.toNat
  if m &&& (m - 1) ≠ 0 then throw "N must be a power of 2"
  let bitsNeeded := jsLog2 m
  let newPrefix := cidr.prefixLen + bitsNeeded
  if newPrefix > cidr.bits then
    throw "Cannot split - would exceed maximum prefix length"
  let subnetSize := 1 <<< (cidr.bits - newPrefix)
  return (List.range m).map
    (fun i => ⟨cidr.version, cidr.bits, cidr.network + i * subnetSize, newPrefix⟩)

/-- `mergeSiblings(a, b)` from core/transformations.ts. -/
def mergeSiblings (a b : NormalisedCidr) : Except Err NormalisedCidr := do
  if a.version ≠ b.version ∨ a.bits ≠ b.bits then
    throw "Cannot merge CIDRs of different versions"
  if a.prefixLen ≠ b.prefixLen then
    throw "Cannot merge CIDRs with different prefix lengths"
  if a.prefixLen = 0 then throw "Cannot merge /0 prefixes"
  let parentPrefix := a.prefixLen - 1
  let parentMask ← maskFromPrefix parentPrefix a.bits
  let aParent := a.network &&& parentMask
  let bParent := b.network &&& parentMask
  if aParent ≠ bParent then throw "CIDRs are not siblings (different parents)"
  let lr ← splitBinary ⟨a.version, a.bits, aParent, parentPrefix⟩
  let isValid :=
    (a.network = lr.1.network ∧ b.network = lr.2.network) ∨
    (a.network = lr.2.network ∧ b.network = lr.1.network)
  if ¬ isValid then throw "CIDRs are not valid siblings"
  return ⟨a.version, a.bits, aParent, parentPrefix⟩

/-- One left-to-right pass of `summarizePrefixes`: merges any adjacent
mergeable pair (the inner `while (i < current.length)` loop), returning the
new list and the `changed` flag. -/
def summarizePass : List NormalisedCidr → (List NormalisedCidr × Bool)
  | [] => ([], false)
  | [a] => ([a], false)
  | a :: b :: rest =>
    match mergeSiblings a b with
    | .ok merged =>
      let next := summarizePass rest
      (merged :: next.1, true)
    | .error _ =>
      let next := summarizePass (b :: rest)
      (a :: next.1, next.2)

/-- The `while (changed)` fixpoint loop of `summarizePrefixes`.  Each
changed pass strictly shrinks the list, so `length + 1` fuel is enough. -/
def summarizeLoop : Nat → List NormalisedCidr → List NormalisedCidr
  | 0, cur => cur
  | fuel + 1, cur =>
    let next := summarizePass cur
    if next.2 then summarizeLoop fuel next.1 else next.1

/-- `summarizePrefixes(cidrs)` from core/transformations.ts. -/
def summarizePrefixes (cidrs : List NormalisedCidr) : Except Err (List NormalisedCidr) := do
  match cidrs with
  | [] => return []
  | [c] => return [c]
  | c0 :: _ =>
    if ¬ cidrs.all (fun c => c.version = c0.version ∧ c.bits = c0.bits) then
      throw "All CIDRs must be the same IP version"
    let sorted := cidrs.mergeSort (fun a b => a.network ≤ b.network)
    return summarizeLoop (cidrs.length + 1) sorted

/-- `minimalCoveringSupernet(cidrs)` from core/transformations.ts.  The
common-prefix search is the source loop `for (p = 0; p <= bits; p++) { ...
break }` with result variable initialised to `bits`, modelled by `find?`
over `0..bits`. -/
def minimalCoveringSupernet (cidrs : List NormalisedCidr) : Except Err NormalisedCidr := do
  match cidrs with
  | [] => throw "Cannot compute supernet of empty set"
  | c0 :: _ =>
    if cidrs.length = 1 then return c0
    let bits := c0.bits
    if ¬ cidrs.all (fun c => c.version = c0.version ∧ c.bits = bits) then
      throw "All CIDRs must be the same IP version"
    let minNet := cidrs.foldl (fun m c => if c.network < m then c.network else m) c0.network
    let maxNet := cidrs.foldl
      (fun m c =>
        let lastAddr := c.network + (1 <<< (bits - c.prefixLen)) - 1
        if lastAddr > m then lastAddr else m)
      c0.network
    let p := ((List.range (bits + 1)).find?
      (fun p => (minNet &&& maskVal p bits) = (maxNet &&& maskVal p bits))).getD bits
    let mask ← maskFromPrefix p bits
    return ⟨c0.version, bits, minNet &&& mask, p⟩

/-! ### Set reasoning engine (core/set-operations.ts) -/

/-- `containsIp(cidr, ip)` from core/set-operations.ts: the `try/catch`
around the body catches exactly the parse failure and yields `false`. -/
def containsIp (cidr : NormalisedCidr) (ip : String) : Bool :=
  match (if cidr.version = 6 then ipv6ToBigInt ip else ipv4ToBigInt ip) with
  | .error _ => false
  | .ok ipInt =>
    let mask := (1 <<< (cidr.bits - cidr.prefixLen)) - 1
    let lastAddr := cidr.network + mask
    decide (cidr.network ≤ ipInt ∧ ipInt ≤ lastAddr)

/-- `containsPrefix(a, b)` from core/set-operations.ts. -/
def containsPrefix (a b : NormalisedCidr) : Bool :=
  if a.version ≠ b.version ∨ a.bits ≠ b.bits then false
  else if a.prefixLen > b.prefixLen then false
  else
    let aLast := a.network + ((1 <<< (a.bits - a.prefixLen)) - 1)
    let bLast := b.network + ((1 <<< (b.bits - b.prefixLen)) - 1)
    decide (a.network ≤ b.network ∧ bLast ≤ aLast)

inductive OverlapType
  | IDENTICAL | A_CONTAINS_B | B_CONTAINS_A | PARTIAL
deriving Repr, DecidableEq

structure Overlap where
  a : NormalisedCidr
  b : NormalisedCidr
  type : OverlapType
deriving Repr, DecidableEq

structure OverlapResult where
  hasOverlap : Bool
  overlaps : List Overlap
deriving Repr, DecidableEq

/-- The body of the double loop of `detectOverlaps` for one ordered pair:
`some` when the pair is recorded. -/
def overlapPair (a b : NormalisedCidr) : Option Overlap :=
  if a.version ≠ b.version ∨ a.bits ≠ b.bits then none
  else
    let aLast := a.network + ((1 <<< (a.bits - a.prefixLen)) - 1)
    let bLast := b.network + ((1 <<< (b.bits - b.prefixLen)) - 1)
    if ¬ (aLast < b.network ∨ bLast < a.network) then
      let t : OverlapType :=
        if a.network = b.network ∧ a.prefixLen = b.prefixLen then .IDENTICAL
        else if containsPrefix a b then .A_CONTAINS_B
        else if containsPrefix b a then .B_CONTAINS_A
        else .PARTIAL
      some ⟨a, b, t⟩
    else none

/-- The `i < j` double loop of `detectOverlaps` in row-major order. -/
def overlapPairs : List NormalisedCidr → List Overlap
  | [] => []
  | a :: rest => rest.filterMap (fun b => overlapPair a b) ++ overlapPairs rest

/-- `detectOverlaps(cidrs)` from core/set-operations.ts. -/
def detectOverlaps (cidrs : List NormalisedCidr) : OverlapResult :=
  let overlaps := overlapPairs cidrs
  ⟨decide (overlaps.length > 0), overlaps⟩

/-- `intersectPrefixes(a, b)` from core/set-operations.ts. -/
def intersectPrefixes (a b : NormalisedCidr) : Option NormalisedCidr :=
  if a.version ≠ b.version ∨ a.bits ≠ b.bits then none
  else
    let aLast := a.network + ((1 <<< (a.bits - a.prefixLen)) - 1)
    let bLast := b.network + ((1 <<< (b.bits - b.prefixLen)) - 1)
    if aLast < b.network ∨ bLast < a.network then none
    else
      let intStart := if a.network > b.network then a.network else b.network
      if containsPrefix a b then some b
      else if containsPrefix b a then some a
      else
        let longer := if a.prefixLen > b.prefixLen then a.prefixLen else b.prefixLen
        some ⟨a.version, a.bits, intStart, longer⟩

/-! ### VLSM allocator (core/vlsm.ts) -/

inductive VlsmStrategy
  | LARGEST_FIRST | SMALLEST_FIRST | PACKED_LOW | PACKED_HIGH | BALANCED
deriving Repr, DecidableEq

/-- `VlsmRequest` from core/types.ts.  The opaque `metadata` map, which every
function threads through unchanged, is omitted. -/
structure VlsmRequest where
  name : String
  requiredHosts : Option Nat
  requiredPrefix : Option Nat
deriving Repr, DecidableEq

/-- `VlsmAllocation` from core/types.ts (again without the opaque metadata). -/
structure VlsmAllocation where
  name : String
  cidr : NormalisedCidr
  allocated : Bool
deriving Repr, DecidableEq

/-- The host-bits computation duplicated in `sortRequestsByStrategy` and
`allocateOne` (core/vlsm.ts).  `Math.ceil(Math.log2 x)` is modelled by the
exact `ceilLog2`; host counts are naturals. -/
def hostBitsFor (version requiredHosts : Nat) : Nat :=
  if version = 4 then
    if requiredHosts = 1 then 0
    else if requiredHosts = 2 then 1
    else ceilLog2 (requiredHosts + 2)
  else ceilLog2 requiredHosts

/-- `getSize` inside `sortRequestsByStrategy` (core/vlsm.ts); `Int` because
the subtraction can go negative for huge host counts. -/
def getSize (version : Nat) (req : VlsmRequest) : Int :=
  match req.requiredPrefix with
  | some p => (p : Int)
  | none =>
    match req.requiredHosts with
    | some h => (if version = 4 then (32 : Int) else 128) - hostBitsFor version h
    | none => 0

/-- `sortRequestsByStrategy(requests, strategy, version)` from core/vlsm.ts.
JavaScript `Array.prototype.sort` is a stable sort driven by the comparator
`getSize a - getSize b` (or its flip), modelled by a stable merge sort on
the corresponding `≤`. -/
def sortRequestsByStrategy (requests : List VlsmRequest) (strategy : VlsmStrategy)
    (version : Nat) : List VlsmRequest :=
  match strategy with
  | .LARGEST_FIRST =>
    requests.mergeSort (fun a b => getSize version a ≤ getSize version b)
  | .SMALLEST_FIRST =>
    requests.mergeSort (fun a b => getSize version b ≤ getSize version a)
  | .PACKED_LOW | .PACKED_HIGH | .BALANCED =>
    requests.mergeSort (fun a b => getSize version a ≤ getSize version b)

/-- JavaScript `1 << d`: the shift count is taken mod 32 and the result is a
signed 32-bit integer. -/
def jsShl1 (d : Nat) : Int :=
  if d % 32 = 31 then -(2 ^ 31) else (2 ^ (d % 32) : Nat)

/-- The required-prefix computation at the head of `allocateOne`
(core/vlsm.ts): an explicit `requiredPrefix`, or one derived from
`requiredHosts`, or the "must specify" error. -/
def vlsmRequiredPfx (parentBits : Nat) (request : VlsmRequest) (version : Nat) :
    Except Err Int :=
  match request.requiredPrefix with
  | some p => pure (p : Int)
  | none =>
    match request.requiredHosts with
    | some h => pure ((parentBits : Int) - hostBitsFor version h)
    | none => throw "Request must specify either requiredHosts or requiredPrefix"

/-- `allocateOne(parent, request, allocated, version)` from core/vlsm.ts. -/
def allocateOne (parent : NormalisedCidr) (request : VlsmRequest)
    (allocated : List NormalisedCidr) (version : Nat) :
    Except Err (Option NormalisedCidr) := do
  let requiredPfx ← vlsmRequiredPfx parent.bits request version
  if requiredPfx < (parent.prefixLen : Int) then return none
  let prefixDiff := (requiredPfx - parent.prefixLen).toNat
  let candidates ← splitIntoN parent (jsShl1 prefixDiff)
  return candidates.find? (fun candidate =>
    ¬ allocated.any (fun alloc =>
      containsPrefix candidate alloc ∨ containsPrefix alloc candidate ∨
      candidate.network = alloc.network))

/-- The allocation loop of `allocateVlsm`: walks the sorted requests,
accumulating successful allocations into `allocated`. -/
def allocLoop (parent : NormalisedCidr) (version : Nat) :
    List VlsmRequest → List NormalisedCidr → Except Err (List VlsmAllocation)
  | [], _ => return []
  | req :: rest, allocated => do
    let allocation ← allocateOne parent req allocated version
    match allocation with
    | some a => do
      let tailAllocs ← allocLoop parent version rest (allocated ++ [a])
      return ⟨req.name, a, true⟩ :: tailAllocs
    | none => do
      let tailAllocs ← allocLoop parent version rest allocated
      return ⟨req.name, parent, false⟩ :: tailAllocs

/-- `allocateVlsm(parent, requests, strategy, reserved)` from core/vlsm.ts. -/
def allocateVlsm (parent : NormalisedCidr) (requests : List VlsmRequest)
    (strategy : VlsmStrategy) (reserved : List NormalisedCidr) :
    Except Err (List VlsmAllocation) := do
  if reserved.any (fun res => ¬ containsPrefix parent res) then
    throw "Reserved block is not within parent prefix"
  let sortedRequests := sortRequestsByStrategy requests strategy parent.version
  allocLoop parent parent.version sortedRequests reserved

/-! ### Claim C10 -/

/-- C10: `ipv4ToBigInt` accepts non-canonical dotted-decimal input with
leading zeros: `"010.000.000.001"` parses successfully and yields the same
32-bit value as the canonical `"10.0.0.1"` (10.0.0.1 = 167772161), because
octets are validated only as digit strings with value in `[0, 255]`. -/
theorem c10_ipv4_accepts_leading_zeros :
    ipv4ToBigInt "010.000.000.001" = .ok 167772161 ∧
    ipv4ToBigInt "10.0.0.1" = .ok 167772161 := by
  constructor <;> decide

/-! ### Claim C1 -/

/-- C1 (code bug): on the two-element input `[192.168.1.0/24, 192.168.2.0/24]`
`minimalCoveringSupernet` returns `0.0.0.0/0`, because its common-prefix
search scans `p = 0, 1, ...` upward and stops at the first `p` where the
min-network and max-last-address agree under `mask(p, bits)` — which is
always `p = 0`.  The claim (and the spec) ask for the longest such prefix:
here the two addresses still agree under `mask(22, 32)` and first disagree
under `mask(23, 32)`, so the specified result is `192.168.0.0/22`, not
`0.0.0.0/0`. -/
theorem c1_minimalCoveringSupernet_returns_slash_zero :
    minimalCoveringSupernet
      [⟨4, 32, 0xC0A80100, 24⟩, ⟨4, 32, 0xC0A80200, 24⟩] = .ok ⟨4, 32, 0, 0⟩ ∧
    (0xC0A80100 &&& maskVal 22 32) = (0xC0A802FF &&& maskVal 22 32) ∧
    (0xC0A80100 &&& maskVal 23 32) ≠ (0xC0A802FF &&& maskVal 23 32) ∧
    (0xC0A80100 &&& maskVal 22 32) = 0xC0A80000 := by
  refine ⟨by decide, by decide, by decide, by decide⟩

/-! ### Arithmetic helpers about aligned blocks -/

theorem ok_bind {α β : Type} (a : α) (f : α → Except Err β) :
    (Except.ok a >>= f : Except Err β) = f a := rfl

theorem pure_eq_ok {α : Type} (a : α) : (pure a : Except Err α) = Except.ok a := rfl

theorem and_maskVal_add {x d p bits : Nat} (hp : p ≤ bits) (hdvd : 2 ^ (bits - p) ∣ x)
    (hd : d < 2 ^ (bits - p)) (hlt : x + d < 2 ^ bits) :
    (x + d) &&& maskVal p bits = x := by
  rw [and_maskVal hlt hp]
  obtain ⟨q, hq⟩ := hdvd
  subst hq
  rw [Nat.mul_add_div (Nat.two_pow_pos _), Nat.div_eq_of_lt hd, Nat.add_zero]

theorem aligned_add_lt {x k bits d : Nat} (hx : x < 2 ^ bits) (hdvd : 2 ^ k ∣ x)
    (hk : k ≤ bits) (hd : d < 2 ^ k) : x + d < 2 ^ bits := by
  obtain ⟨q, hq⟩ := hdvd
  subst hq
  have hq' : q < 2 ^ (bits - k) := by
    by_contra hq'
    push_neg at hq'
    have : 2 ^ bits ≤ 2 ^ k * q := by
      calc 2 ^ bits = 2 ^ k * 2 ^ (bits - k) := by rw [← pow_add]; congr 1; omega
        _ ≤ 2 ^ k * q := Nat.mul_le_mul_left _ hq'
    omega
  have : 2 ^ k * q + d < 2 ^ k * (q + 1) := by
    have := Nat.two_pow_pos k
    nlinarith
  calc 2 ^ k * q + d < 2 ^ k * (q + 1) := this
    _ ≤ 2 ^ k * 2 ^ (bits - k) := Nat.mul_le_mul_left _ hq'
    _ = 2 ^ bits := by rw [← pow_add]; congr 1; omega

/-! ### Claim C5 -/

/-- C5: for every canonical, well-formed `NormalisedCidr` with
`prefix < bits`, `mergeSiblings` applied to the two halves returned by
`splitBinary` gives back exactly the original value; and `splitBinary` fails
on every value with `prefix ≥ bits`. -/
theorem c5_split_merge_inverse (c : NormalisedCidr) (hp : c.prefixLen < c.bits)
    (hn : c.network < 2 ^ c.bits) (hc : Canonical c) :
    (∃ l r, splitBinary c = .ok (l, r) ∧ mergeSiblings l r = .ok c) ∧
    (∀ d : NormalisedCidr, d.bits ≤ d.prefixLen → ∃ e, splitBinary d = .error e) := by
  constructor
  · have hsplit : splitBinary c = .ok
        (⟨c.version, c.bits, c.network, c.prefixLen + 1⟩,
         ⟨c.version, c.bits, c.network + (1 <<< (c.bits - (c.prefixLen + 1))), c.prefixLen + 1⟩) := by
      unfold splitBinary
      simp [Nat.not_le_of_lt hp, Except.instMonad, Except.bind, Except.pure]
    refine ⟨_, _, hsplit, ?_⟩
    set k := c.bits - c.prefixLen with hk
    have hk1 : c.bits - (c.prefixLen + 1) = k - 1 := by omega
    have hkpos : 0 < k := by omega
    have hhalf : (1 <<< (c.bits - (c.prefixLen + 1))) = 2 ^ (k - 1) := by
      rw [hk1, Nat.shiftLeft_eq, one_mul]
    have hdvd : 2 ^ k ∣ c.network := Canonical.dvd ⟨le_of_lt hp, hn⟩ hc
    have hhalflt : 2 ^ (k - 1) < 2 ^ k := Nat.pow_lt_pow_right (by norm_num) (by omega)
    have hblt : c.network + 2 ^ (k - 1) < 2 ^ c.bits :=
      aligned_add_lt hn hdvd (by omega) hhalflt
    unfold mergeSiblings
    simp only [Nat.add_sub_cancel]
    rw [maskFromPrefix_ok (le_of_lt hp)]
    have haP : c.network &&& maskVal c.prefixLen c.bits = c.network := hc.symm
    have hbP : (c.network + (1 <<< (c.bits - (c.prefixLen + 1)))) &&& maskVal c.prefixLen c.bits
        = c.network := by
      rw [hhalf]
      exact and_maskVal_add (le_of_lt hp) hdvd hhalflt hblt
    simp only [ok_bind, haP, hbP]
    unfold splitBinary
    simp [Nat.not_le_of_lt hp, Except.instMonad, Except.bind, Except.pure]
  · intro d hd
    refine ⟨"Cannot split - already at maximum prefix length", ?_⟩
    unfold splitBinary
    simp [hd, Except.instMonad, Except.bind, Except.pure]

theorem c5_split_merge_inverse_witness :
    (∃ l r, splitBinary ⟨4, 32, 0xC0A80100, 24⟩ = .ok (l, r) ∧
      mergeSiblings l r = .ok ⟨4, 32, 0xC0A80100, 24⟩) ∧
    (∀ d : NormalisedCidr, d.bits ≤ d.prefixLen → ∃ e, splitBinary d = .error e) :=
  c5_split_merge_inverse ⟨4, 32, 0xC0A80100, 24⟩ (by decide) (by decide) (by decide)

/-! ### Claim C3 -/

theorem bigIntToIpv4_ok {n : Nat} (h : n ≤ 0xffffffff) :
    ∃ s, bigIntToIpv4 n = .ok s := by
  unfold bigIntToIpv4
  split
  · omega
  · exact ⟨_, rfl⟩

theorem bigIntToIpv6_ok {n : Nat} (h : n ≤ 2 ^ 128 - 1) :
    ∃ s, bigIntToIpv6 n = .ok s := by
  unfold bigIntToIpv6
  split
  · omega
  · exact ⟨_, rfl⟩

theorem formatAddress_ok {version bits n : Nat}
    (hv : (version = 4 ∧ bits = 32) ∨ (version = 6 ∧ bits = 128))
    (h : n < 2 ^ bits) : ∃ s, formatAddress version n = .ok s := by
  rcases hv with ⟨h4, hb⟩ | ⟨h6, hb⟩
  · subst h4 hb
    obtain ⟨s, hs⟩ := bigIntToIpv4_ok (n := n) (by norm_num at h ⊢; omega)
    exact ⟨s, by unfold formatAddress; simp [hs]⟩
  · subst h6 hb
    obtain ⟨s, hs⟩ := bigIntToIpv6_ok (n := n) (by omega)
    exact ⟨s, by unfold formatAddress; simp [hs]⟩

theorem formatCidr_ok {version bits n : Nat} (p : Nat)
    (hv : (version = 4 ∧ bits = 32) ∨ (version = 6 ∧ bits = 128))
    (h : n < 2 ^ bits) : ∃ s, formatCidr version n p = .ok s := by
  obtain ⟨s, hs⟩ := formatAddress_ok hv h
  unfold formatCidr
  rw [hs]
  exact ⟨_, rfl⟩

theorem lor_lt_two_pow {a b n : Nat} (ha : a < 2 ^ n) (hb : b < 2 ^ n) :
    a ||| b < 2 ^ n := by
  apply Nat.lt_pow_two_of_testBit
  intro i hi
  have hta : a.testBit i = false :=
    Nat.testBit_lt_two_pow (lt_of_lt_of_le ha (Nat.pow_le_pow_right (by norm_num) hi))
  have htb : b.testBit i = false :=
    Nat.testBit_lt_two_pow (lt_of_lt_of_le hb (Nat.pow_le_pow_right (by norm_num) hi))
  simp [Nat.testBit_or, hta, htb]

/-- Bitwise-or of an aligned value with a below-alignment value is addition. -/
theorem aligned_lor_eq_add {x w k : Nat} (hdvd : 2 ^ k ∣ x) (hw : w < 2 ^ k) :
    x ||| w = x + w := by
  obtain ⟨q, hq⟩ := hdvd
  subst hq
  exact (Nat.mul_add_lt_is_or hw q).symm

theorem maskVal_lt {p bits : Nat} (hp : p ≤ bits) : maskVal p bits < 2 ^ bits := by
  rw [maskVal_eq hp]
  have := Nat.two_pow_pos (bits - p)
  have := Nat.two_pow_pos bits
  omega

theorem wildcardVal_lt {p bits : Nat} : wildcardVal p bits < 2 ^ bits := by
  rw [wildcardVal_eq]
  have h1 : 2 ^ (bits - p) ≤ 2 ^ bits := Nat.pow_le_pow_right (by norm_num) (by omega)
  have := Nat.two_pow_pos (bits - p)
  omega

/-- C3: `subnetMeta` matches the spec's edge-case table on every in-range,
canonical input: IPv4 `/32` is a single usable host; IPv4 `/31` follows
RFC 3021 (both addresses usable); any other IPv4 prefix has `2^(32-p)`
addresses with network and broadcast reserved; IPv6 has all `2^(128-p)`
addresses usable.  `last` is `network ||| wildcard(prefix, bits)`, the IPv4
result carries `broadcast = last`, and the IPv6 result carries no broadcast
value. -/
theorem c3_subnetMeta_edge_cases (network p version bits : Nat)
    (hv : (version = 4 ∧ bits = 32) ∨ (version = 6 ∧ bits = 128))
    (hp : p ≤ bits) (hn : network < 2 ^ bits)
    (hcanon : 2 ^ (bits - p) ∣ network) :
    ∃ m, subnetMeta network p version bits = .ok m ∧
      m.addressCount = 2 ^ (bits - p) ∧
      (∃ sLast, formatAddress version (network ||| wildcardVal p bits) = .ok sLast ∧
        m.lastAddress = sLast ∧
        (version = 4 → m.broadcast = some sLast) ∧
        (version = 6 → m.broadcast = none)) ∧
      (version = 4 → p = 32 →
        m.usableCount = 1 ∧
        ∃ s, formatAddress version network = .ok s ∧
          m.firstUsable = some s ∧ m.lastUsable = some s) ∧
      (version = 4 → p = 31 →
        m.usableCount = 2 ∧
        (∃ s, formatAddress version network = .ok s ∧ m.firstUsable = some s) ∧
        (∃ s, formatAddress version (network ||| wildcardVal p bits) = .ok s ∧
          m.lastUsable = some s)) ∧
      (version = 4 → p ≠ 32 → p ≠ 31 →
        m.usableCount = 2 ^ (bits - p) - 2 ∧
        (∃ s, formatAddress version (network + 1) = .ok s ∧ m.firstUsable = some s) ∧
        (∃ s, formatAddress version ((network ||| wildcardVal p bits) - 1) = .ok s ∧
          m.lastUsable = some s)) ∧
      (version = 6 →
        m.usableCount = m.addressCount ∧
        (∃ s, formatAddress version network = .ok s ∧ m.firstUsable = some s) ∧
        (∃ s, formatAddress version (network ||| wildcardVal p bits) = .ok s ∧
          m.lastUsable = some s)) := by
  have hwlt : wildcardVal p bits < 2 ^ bits := wildcardVal_lt
  have hlastlt : network ||| wildcardVal p bits < 2 ^ bits := lor_lt_two_pow hn hwlt
  have hassert : assertIntegerInRange p 0 bits "Invalid prefix" = .ok () := by
    unfold assertIntegerInRange
    simp [hp]
  obtain ⟨sC, hsC⟩ := formatCidr_ok p hv hn
  obtain ⟨sN, hsN⟩ := formatAddress_ok hv hn
  obtain ⟨sM, hsM⟩ := formatAddress_ok hv (maskVal_lt hp)
  obtain ⟨sW, hsW⟩ := formatAddress_ok hv hwlt
  obtain ⟨sL, hsL⟩ := formatAddress_ok hv hlastlt
  rcases hv with ⟨h4, hb⟩ | ⟨h6, hb⟩
  · subst h4 hb
    rcases eq_or_ne p 32 with h32 | h32
    · subst h32
      have hlast0 : network ||| wildcardVal 32 32 = network := by
        simp [wildcardVal]
      rw [hlast0] at hsL hlastlt
      have hNL : sL = sN := by
        rw [hsN] at hsL
        injection hsL.symm
      rw [hNL] at hsL
      refine ⟨{ version := 4, bits := 32, cidr := sC, network := sN, prefixLen := 32,
                netmask := sM, wildcard := sW, broadcast := some sN, lastAddress := sN,
                addressCount := 1, usableCount := 1,
                firstUsable := some sN, lastUsable := some sN }, ?_, ?_⟩
      · unfold subnetMeta
        rw [hassert, maskFromPrefix_ok (by norm_num), wildcardFromPrefix_ok (by norm_num)]
        simp only [ok_bind, hlast0]
        rw [hsC, hsN, hsM, hsW]
        simp [hsN, hsL, hlast0, Except.instMonad, Except.bind, Except.pure]
      · simp [hlast0, hsL, hsN]
    · rcases eq_or_ne p 31 with h31 | h31
      · subst h31
        refine ⟨{ version := 4, bits := 32, cidr := sC, network := sN, prefixLen := 31,
                  netmask := sM, wildcard := sW, broadcast := some sL, lastAddress := sL,
                  addressCount := 2, usableCount := 2,
                  firstUsable := some sN, lastUsable := some sL }, ?_, ?_⟩
        · unfold subnetMeta
          rw [hassert, maskFromPrefix_ok (by norm_num), wildcardFromPrefix_ok (by norm_num)]
          simp only [ok_bind]
          rw [hsC, hsN, hsM, hsW]
          simp [hsN, hsL, Except.instMonad, Except.bind, Except.pure]
        · simp [hsL, hsN]
      · -- the generic IPv4 branch: network+1 and last-1 are in range because
        -- the network is aligned to a block of size at least 4
        have hk2 : 2 ≤ 32 - p := by omega
        have hnle : network + 1 < 2 ^ 32 := by
          have h4le : 4 ≤ 2 ^ (32 - p) := by
            calc (4 : Nat) = 2 ^ 2 := by norm_num
              _ ≤ 2 ^ (32 - p) := Nat.pow_le_pow_right (by norm_num) hk2
          exact aligned_add_lt (k := 32 - p) (d := 1) hn hcanon (by omega) (by omega)
        obtain ⟨s1, hs1⟩ := formatAddress_ok (n := network + 1) (Or.inl ⟨rfl, rfl⟩) hnle
        obtain ⟨sU, hsU⟩ := formatAddress_ok (n := (network ||| wildcardVal p 32) - 1)
          (Or.inl ⟨rfl, rfl⟩) (by omega)
        refine ⟨{ version := 4, bits := 32, cidr := sC, network := sN, prefixLen := p,
                  netmask := sM, wildcard := sW, broadcast := some sL, lastAddress := sL,
                  addressCount := 1 <<< (32 - p), usableCount := 1 <<< (32 - p) - 2,
                  firstUsable := some s1, lastUsable := some sU }, ?_, ?_⟩
        · unfold subnetMeta
          rw [hassert, maskFromPrefix_ok hp, wildcardFromPrefix_ok hp]
          simp only [ok_bind]
          rw [hsC, hsN, hsM, hsW]
          simp [h32, h31, hs1, hsU, hsL, Except.instMonad, Except.bind, Except.pure]
        · simp [hsL, hs1, hsU, h32, h31, Nat.shiftLeft_eq]
  · subst h6 hb
    refine ⟨{ version := 6, bits := 128, cidr := sC, network := sN, prefixLen := p,
              netmask := sM, wildcard := sW, broadcast := none, lastAddress := sL,
              addressCount := 1 <<< (128 - p), usableCount := 1 <<< (128 - p),
              firstUsable := some sN, lastUsable := some sL }, ?_, ?_⟩
    · unfold subnetMeta
      rw [hassert, maskFromPrefix_ok hp, wildcardFromPrefix_ok hp]
      simp only [ok_bind]
      rw [hsC, hsN, hsM, hsW]
      simp [hsN, hsL, Except.instMonad, Except.bind, Except.pure]
    · simp [hsL, hsN, Nat.shiftLeft_eq]

theorem c3_subnetMeta_edge_cases_witness :
    ∃ m, subnetMeta 0x0A000000 31 4 32 = .ok m ∧
      m.addressCount = 2 ^ (32 - 31) ∧
      (∃ sLast, formatAddress 4 (0x0A000000 ||| wildcardVal 31 32) = .ok sLast ∧
        m.lastAddress = sLast ∧
        ((4 : Nat) = 4 → m.broadcast = some sLast) ∧
        ((4 : Nat) = 6 → m.broadcast = none)) ∧
      ((4 : Nat) = 4 → (31 : Nat) = 32 →
        m.usableCount = 1 ∧
        ∃ s, formatAddress 4 0x0A000000 = .ok s ∧
          m.firstUsable = some s ∧ m.lastUsable = some s) ∧
      ((4 : Nat) = 4 → (31 : Nat) = 31 →
        m.usableCount = 2 ∧
        (∃ s, formatAddress 4 0x0A000000 = .ok s ∧ m.firstUsable = some s) ∧
        (∃ s, formatAddress 4 (0x0A000000 ||| wildcardVal 31 32) = .ok s ∧
          m.lastUsable = some s)) ∧
      ((4 : Nat) = 4 → (31 : Nat) ≠ 32 → (31 : Nat) ≠ 31 →
        m.usableCount = 2 ^ (32 - 31) - 2 ∧
        (∃ s, formatAddress 4 (0x0A000000 + 1) = .ok s ∧ m.firstUsable = some s) ∧
        (∃ s, formatAddress 4 ((0x0A000000 ||| wildcardVal 31 32) - 1) = .ok s ∧
          m.lastUsable = some s)) ∧
      ((4 : Nat) = 6 →
        m.usableCount = m.addressCount ∧
        (∃ s, formatAddress 4 0x0A000000 = .ok s ∧ m.firstUsable = some s) ∧
        (∃ s, formatAddress 4 (0x0A000000 ||| wildcardVal 31 32) = .ok s ∧
          m.lastUsable = some s)) :=
  c3_subnetMeta_edge_cases 0x0A000000 31 4 32 (Or.inl ⟨rfl, rfl⟩)
    (by decide) (by decide) (by decide)

/-! ### Claim C8 -/

theorem splitOnChar_ne_nil (sep : Char) (l : List Char) : splitOnChar sep l ≠ [] := by
  cases l with
  | nil => simp [splitOnChar]
  | cons c rest =>
    unfold splitOnChar
    cases hsp : splitOnChar sep rest with
    | nil => simp
    | cons g gs => by_cases hcs : c = sep <;> simp [hcs]

theorem splitOnChar_length_one {sep : Char} {l : List Char} (h : sep ∉ l) :
    (splitOnChar sep l).length = 1 := by
  induction l with
  | nil => simp [splitOnChar]
  | cons c rest ih =>
    have hc : c ≠ sep := fun hc => h (hc ▸ List.mem_cons_self c rest)
    have hrest : sep ∉ rest := fun hr => h (List.mem_cons_of_mem c hr)
    unfold splitOnChar
    cases hsp : splitOnChar sep rest with
    | nil => exact absurd hsp (splitOnChar_ne_nil sep rest)
    | cons g gs =>
      have := ih hrest
      rw [hsp] at this
      simp only [List.length_cons] at this
      simp [hc, this]

theorem jsTrim_subset {l : List Char} {c : Char} (h : c ∈ jsTrim l) : c ∈ l := by
  unfold jsTrim at h
  rw [List.mem_reverse] at h
  have h1 := (List.dropWhile_sublist (l := (l.dropWhile jsIsWs).reverse) jsIsWs).mem h
  rw [List.mem_reverse] at h1
  exact (List.dropWhile_sublist jsIsWs).mem h1

/-- C8: the two documented "safe" functions degrade to a default instead of
failing: `containsIp` is `false` whenever the address text does not parse and
is exactly the range test `network ≤ ip ≤ last` when it does, and
`classifyAddress` is the empty list whenever the address text does not parse.
In contrast the other core operations fail fast: `parseCidr` rejects input
without a `/`, `minimalCoveringSupernet` rejects the empty list, and
`mergeSiblings` rejects mismatched prefix lengths, each with an error rather
than a default value. -/
theorem c8_safe_degradation :
    (∀ (cidr : NormalisedCidr) (ip : String),
      ((if cidr.version = 6 then ipv6ToBigInt ip else ipv4ToBigInt ip).isOk = false →
        containsIp cidr ip = false) ∧
      (∀ v, (if cidr.version = 6 then ipv6ToBigInt ip else ipv4ToBigInt ip) = .ok v →
        (containsIp cidr ip = true ↔
          cidr.network ≤ v ∧
          v ≤ cidr.network + ((1 <<< (cidr.bits - cidr.prefixLen)) - 1)))) ∧
    (∀ s : String,
      (isLikelyIpv6 s.data = true → (ipv6ToBigInt s).isOk = false →
        classifyAddress s = []) ∧
      (isLikelyIpv6 s.data = false → (ipv4ToBigInt s).isOk = false →
        classifyAddress s = [])) ∧
    (∀ s : String, ¬ s.data.contains '/' → ∃ e, parseCidr s = .error e) ∧
    (∃ e, minimalCoveringSupernet [] = .error e) ∧
    (∀ a b : NormalisedCidr, a.prefixLen ≠ b.prefixLen →
      ∃ e, mergeSiblings a b = .error e) := by
  refine ⟨?_, ?_, ?_, ⟨_, rfl⟩, ?_⟩
  · intro cidr ip
    constructor
    · intro hfail
      unfold containsIp
      match h : (if cidr.version = 6 then ipv6ToBigInt ip else ipv4ToBigInt ip) with
      | .error e => rfl
      | .ok v =>
        rw [h] at hfail
        simp [Except.isOk, Except.toBool] at hfail
    · intro v hok
      unfold containsIp
      rw [hok]
      simp
  · intro s
    constructor
    · intro hv6 hfail
      unfold classifyAddress
      rw [hv6]
      match h : ipv6ToBigInt s with
      | .error e => simp
      | .ok v =>
        rw [h] at hfail
        simp [Except.isOk, Except.toBool] at hfail
    · intro hv4 hfail
      unfold classifyAddress
      rw [hv4]
      match h : ipv4ToBigInt s with
      | .error e => simp
      | .ok v =>
        rw [h] at hfail
        simp [Except.isOk, Except.toBool] at hfail
  · intro s hs
    have hmem : ('/' : Char) ∉ jsTrim s.data := by
      intro hmem
      exact hs (List.elem_eq_true_of_mem (jsTrim_subset hmem))
    refine ⟨"Invalid CIDR (expected address/prefix)", ?_⟩
    unfold parseCidr
    rw [if_pos (by rw [splitOnChar_length_one hmem]; norm_num)]
    rfl
  · intro a b hab
    unfold mergeSiblings
    by_cases hv : a.version ≠ b.version ∨ a.bits ≠ b.bits
    · exact ⟨_, by rw [if_pos hv]; rfl⟩
    · refine ⟨"Cannot merge CIDRs with different prefix lengths", ?_⟩
      rw [if_neg hv]
      simp only [ok_bind]
      rw [if_pos hab]
      rfl

theorem c8_safe_degradation_witness :
    containsIp ⟨4, 32, 167772160, 24⟩ "banana" = false ∧
    (containsIp ⟨4, 32, 167772160, 24⟩ "10.0.0.77" = true ↔
      (167772160 ≤ 167772237 ∧
        167772237 ≤ 167772160 + ((1 <<< (32 - 24)) - 1))) ∧
    classifyAddress "banana" = [] :=
  ⟨(c8_safe_degradation.1 ⟨4, 32, 167772160, 24⟩ "banana").1 (by decide),
   (c8_safe_degradation.1 ⟨4, 32, 167772160, 24⟩ "10.0.0.77").2 167772237 (by decide),
   (c8_safe_degradation.2.1 "banana").2 (by decide) (by decide)⟩

/-! ### Claim C9 -/

/-- Two well-formed canonical prefixes of one version whose ranges intersect
are nested: one `containsPrefix` the other. -/
theorem canonical_overlap_contains {a b : NormalisedCidr}
    (hwa : Wf a) (hca : Canonical a) (hwb : Wf b) (hcb : Canonical b)
    (hv : a.version = b.version) (hb : a.bits = b.bits)
    (hov1 : b.network ≤ a.network + (2 ^ (a.bits - a.prefixLen) - 1))
    (hov2 : a.network ≤ b.network + (2 ^ (b.bits - b.prefixLen) - 1)) :
    containsPrefix a b = true ∨ containsPrefix b a = true := by
  set ka := a.bits - a.prefixLen with hka
  set kb := b.bits - b.prefixLen with hkb
  have hdA : 2 ^ ka ∣ a.network := Canonical.dvd hwa hca
  have hdB : 2 ^ kb ∣ b.network := Canonical.dvd hwb hcb
  have hpa := Nat.two_pow_pos ka
  have hpb := Nat.two_pow_pos kb
  set x := max a.network b.network with hx
  have hxA1 : a.network ≤ x := le_max_left _ _
  have hxB1 : b.network ≤ x := le_max_right _ _
  have hxA2 : x < a.network + 2 ^ ka := by
    rcases max_choice a.network b.network with hm | hm <;> rw [hx, hm] <;> omega
  have hxB2 : x < b.network + 2 ^ kb := by
    rcases max_choice a.network b.network with hm | hm <;> rw [hx, hm] <;> omega
  rcases le_total a.prefixLen b.prefixLen with hpl | hpl
  · have hk : kb ≤ ka := by rw [hka, hkb, hb]; omega
    obtain ⟨h1, h2⟩ := dyadic_nested hdA hdB hk hxA1 hxA2 hxB1 hxB2
    left
    unfold containsPrefix
    rw [if_neg (by simp [hv, hb]), if_neg (by omega)]
    simp only [Nat.shiftLeft_eq, one_mul, decide_eq_true_eq, ← hka, ← hkb]
    omega
  · have hk : ka ≤ kb := by rw [hka, hkb, hb]; omega
    obtain ⟨h1, h2⟩ := dyadic_nested hdB hdA hk hxB1 hxB2 hxA1 hxA2
    right
    unfold containsPrefix
    rw [if_neg (by simp [hv, hb]), if_neg (by omega)]
    simp only [Nat.shiftLeft_eq, one_mul, decide_eq_true_eq, ← hka, ← hkb]
    omega

theorem mem_overlapPairs {o : Overlap} {l : List NormalisedCidr}
    (h : o ∈ overlapPairs l) :
    ∃ a b, a ∈ l ∧ b ∈ l ∧ overlapPair a b = some o := by
  induction l with
  | nil => simp [overlapPairs] at h
  | cons c rest ih =>
    unfold overlapPairs at h
    rw [List.mem_append] at h
    rcases h with h | h
    · obtain ⟨b, hb, hob⟩ := List.mem_filterMap.mp h
      exact ⟨c, b, List.mem_cons_self _ _, List.mem_cons_of_mem _ hb, hob⟩
    · obtain ⟨a, b, ha, hb, hab⟩ := ih h
      exact ⟨a, b, List.mem_cons_of_mem _ ha, List.mem_cons_of_mem _ hb, hab⟩

/-- C9: on a list of well-formed canonical prefixes, `detectOverlaps` never
classifies a pair as `PARTIAL`: every recorded overlapping pair is
`IDENTICAL`, `A_CONTAINS_B` or `B_CONTAINS_A`, so the `PARTIAL` branch is
unreachable under the mask invariant. -/
theorem c9_detectOverlaps_no_partial (cidrs : List NormalisedCidr)
    (h : ∀ c ∈ cidrs, Wf c ∧ Canonical c) :
    ∀ o ∈ (detectOverlaps cidrs).overlaps, o.type ≠ .PARTIAL := by
  intro o ho
  obtain ⟨a, b, ha, hb, hab⟩ := mem_overlapPairs ho
  obtain ⟨hwa, hca⟩ := h a ha
  obtain ⟨hwb, hcb⟩ := h b hb
  unfold overlapPair at hab
  by_cases hv : a.version ≠ b.version ∨ a.bits ≠ b.bits
  · rw [if_pos hv] at hab
    exact absurd hab (by simp)
  · rw [if_neg hv] at hab
    push_neg at hv
    obtain ⟨hveq, hbeq⟩ := hv
    by_cases hov : ¬ (a.network + (1 <<< (a.bits - a.prefixLen) - 1) < b.network ∨
        b.network + (1 <<< (b.bits - b.prefixLen) - 1) < a.network)
    · rw [if_pos hov] at hab
      push_neg at hov
      rw [Nat.shiftLeft_eq, one_mul] at hov
      obtain ⟨hov1, hov2⟩ := hov
      have hcont := canonical_overlap_contains hwa hca hwb hcb hveq hbeq
        (by omega) (by omega)
      injection hab with hab
      rw [← hab]
      simp only
      intro hcontra
      split at hcontra
      · simp at hcontra
      · split at hcontra
        · simp at hcontra
        · split at hcontra
          · simp at hcontra
          · rename_i h1 h2 h3
            rcases hcont with hc | hc
            · exact h2 hc
            · exact h3 hc
    · rw [if_neg hov] at hab
      exact absurd hab (by simp)

theorem c9_detectOverlaps_no_partial_witness :
    (⟨⟨4, 32, 167772160, 24⟩, ⟨4, 32, 167772288, 25⟩, .A_CONTAINS_B⟩ : Overlap) ∈
      (detectOverlaps
        [⟨4, 32, 167772160, 24⟩, ⟨4, 32, 167772288, 25⟩,
         ⟨4, 32, 167772160, 25⟩]).overlaps ∧
    (⟨⟨4, 32, 167772160, 24⟩, ⟨4, 32, 167772288, 25⟩,
      .A_CONTAINS_B⟩ : Overlap).type ≠ .PARTIAL :=
  ⟨by decide,
   c9_detectOverlaps_no_partial
     [⟨4, 32, 167772160, 24⟩, ⟨4, 32, 167772288, 25⟩, ⟨4, 32, 167772160, 25⟩]
     (by decide) _ (by decide)⟩

/-! ### Claim C2 -/

/-- Evaluation of the VLSM allocator on a two-request input whose strategy
order differs from the input order. -/
theorem allocateVlsm_eval_two_requests :
    allocateVlsm ⟨4, 32, 0xC0A80000, 24⟩
      [⟨"Small", none, some 27⟩, ⟨"Large", none, some 26⟩] .LARGEST_FIRST [] =
    .ok [⟨"Large", ⟨4, 32, 0xC0A80000, 26⟩, true⟩,
         ⟨"Small", ⟨4, 32, 0xC0A80040, 27⟩, true⟩] := by
  have hsort : sortRequestsByStrategy
      [⟨"Small", none, some 27⟩, ⟨"Large", none, some 26⟩] .LARGEST_FIRST 4 =
      [⟨"Large", none, some 26⟩, ⟨"Small", none, some 27⟩] := by
    simp [sortRequestsByStrategy, List.mergeSort, List.splitInTwo, List.merge, getSize]
  unfold allocateVlsm
  rw [if_neg (by decide)]
  dsimp only
  rw [hsort]
  decide

/-- C2 counterexample: with parent `192.168.0.0/24`, input requests
`[Small (/27), Large (/26)]` and strategy `LARGEST_FIRST`, `allocateVlsm`
returns the allocations in the order `[Large, Small]` — the strategy-sorted
allocation order — not in the input order `[Small, Large]` the claim
requires. -/
theorem c2_counterexample :
    (∃ allocs, allocateVlsm ⟨4, 32, 0xC0A80000, 24⟩
        [⟨"Small", none, some 27⟩, ⟨"Large", none, some 26⟩] .LARGEST_FIRST [] =
        .ok allocs ∧
      allocs.map (fun a => a.name) = ["Large", "Small"]) ∧
    (["Large", "Small"] ≠
      ([(⟨"Small", none, some 27⟩ : VlsmRequest),
        ⟨"Large", none, some 26⟩].map (fun r => r.name))) :=
  ⟨⟨_, allocateVlsm_eval_two_requests, by decide⟩, by decide⟩

theorem allocLoop_names {parent : NormalisedCidr} {v : Nat}
    (l : List VlsmRequest) (allocated : List NormalisedCidr)
    {allocs : List VlsmAllocation}
    (h : allocLoop parent v l allocated = .ok allocs) :
    allocs.map (fun a => a.name) = l.map (fun r => r.name) := by
  induction l generalizing allocated allocs with
  | nil =>
    unfold allocLoop at h
    injection h with h
    subst h
    rfl
  | cons req rest ih =>
    unfold allocLoop at h
    match hone : allocateOne parent req allocated v with
    | .error e =>
      rw [hone] at h
      exact absurd h (by simp [Except.instMonad, Except.bind])
    | .ok opt =>
      rw [hone] at h
      match opt with
      | some a =>
        simp only [ok_bind] at h
        match hrec : allocLoop parent v rest (allocated ++ [a]) with
        | .error e =>
          rw [hrec] at h
          exact absurd h (by simp [Except.instMonad, Except.bind])
        | .ok tailAllocs =>
          rw [hrec] at h
          simp only [ok_bind, pure_eq_ok] at h
          injection h with h
          subst h
          simp [ih _ hrec]
      | none =>
        simp only [ok_bind] at h
        match hrec : allocLoop parent v rest allocated with
        | .error e =>
          rw [hrec] at h
          exact absurd h (by simp [Except.instMonad, Except.bind])
        | .ok tailAllocs =>
          rw [hrec] at h
          simp only [ok_bind, pure_eq_ok] at h
          injection h with h
          subst h
          simp [ih _ hrec]

theorem sortRequestsByStrategy_perm (requests : List VlsmRequest)
    (strategy : VlsmStrategy) (v : Nat) :
    (sortRequestsByStrategy requests strategy v).Perm requests := by
  cases strategy <;> exact List.mergeSort_perm _ _

/-- C2 amended: `allocateVlsm` returns exactly one `VlsmAllocation` per
request — the returned names are a permutation of the request names and the
lengths agree — but in the strategy-sorted allocation order
(`sortRequestsByStrategy`), not in the input order. -/
theorem c2_allocateVlsm_order (parent : NormalisedCidr)
    (requests : List VlsmRequest) (strategy : VlsmStrategy)
    (reserved : List NormalisedCidr) (allocs : List VlsmAllocation)
    (h : allocateVlsm parent requests strategy reserved = .ok allocs) :
    allocs.length = requests.length ∧
    allocs.map (fun a => a.name) =
      (sortRequestsByStrategy requests strategy parent.version).map (fun r => r.name) ∧
    (allocs.map (fun a => a.name)).Perm (requests.map (fun r => r.name)) := by
  unfold allocateVlsm at h
  by_cases hres : reserved.any (fun res => ¬ containsPrefix parent res)
  · rw [if_pos hres] at h
    exact absurd h (by simp [Except.instMonad, Except.bind])
  · rw [if_neg hres] at h
    simp only [ok_bind] at h
    have hnames := allocLoop_names _ _ h
    have hperm : ((sortRequestsByStrategy requests strategy parent.version).map
        (fun r => r.name)).Perm (requests.map (fun r => r.name)) :=
      (sortRequestsByStrategy_perm requests strategy parent.version).map _
    have hlen1 : allocs.length =
        (sortRequestsByStrategy requests strategy parent.version).length := by
      have := congrArg List.length hnames
      simpa using this
    have hlen2 := (sortRequestsByStrategy_perm requests strategy parent.version).length_eq
    exact ⟨hlen1.trans hlen2, hnames, hnames ▸ hperm⟩

theorem c2_allocateVlsm_order_witness :
    ([(⟨"Large", ⟨4, 32, 0xC0A80000, 26⟩, true⟩ : VlsmAllocation),
      ⟨"Small", ⟨4, 32, 0xC0A80040, 27⟩, true⟩].length =
        [(⟨"Small", none, some 27⟩ : VlsmRequest), ⟨"Large", none, some 26⟩].length) ∧
    ([(⟨"Large", ⟨4, 32, 0xC0A80000, 26⟩, true⟩ : VlsmAllocation),
      ⟨"Small", ⟨4, 32, 0xC0A80040, 27⟩, true⟩].map (fun a => a.name) =
      (sortRequestsByStrategy
        [⟨"Small", none, some 27⟩, ⟨"Large", none, some 26⟩] .LARGEST_FIRST
        (⟨4, 32, 0xC0A80000, 24⟩ : NormalisedCidr).version).map (fun r => r.name)) ∧
    (([(⟨"Large", ⟨4, 32, 0xC0A80000, 26⟩, true⟩ : VlsmAllocation),
      ⟨"Small", ⟨4, 32, 0xC0A80040, 27⟩, true⟩].map (fun a => a.name)).Perm
      ([(⟨"Small", none, some 27⟩ : VlsmRequest),
        ⟨"Large", none, some 26⟩].map (fun r => r.name))) :=
  c2_allocateVlsm_order ⟨4, 32, 0xC0A80000, 24⟩
    [⟨"Small", none, some 27⟩, ⟨"Large", none, some 26⟩] .LARGEST_FIRST [] _
    allocateVlsm_eval_two_requests

/-! ### Claim C6 -/

theorem pow_of_land_pred : ∀ m : Nat, 0 < m → m &&& (m - 1) = 0 → ∃ k, m = 2 ^ k := by
  intro m
  induction m using Nat.strong_induction_on with
  | _ m ih =>
    intro hm h
    rcases eq_or_ne m 1 with h1 | h1
    · exact ⟨0, by simp [h1]⟩
    · have hm2 : 2 ≤ m := by omega
      have hdiv : m / 2 &&& (m - 1) / 2 = 0 := by
        have := congrArg (· / 2) h
        simpa [Nat.and_div_two] using this
      rcases Nat.even_or_odd m with he | ho
      · obtain ⟨q, hq⟩ := he
        have hq2 : m = 2 * q := by omega
        have hqd : m / 2 = q := by omega
        have hq1d : (m - 1) / 2 = q - 1 := by omega
        rw [hqd, hq1d] at hdiv
        obtain ⟨k, hk⟩ := ih q (by omega) (by omega) hdiv
        exact ⟨k + 1, by rw [hq2, hk]; ring⟩
      · obtain ⟨q, hq⟩ := ho
        have hqd : m / 2 = q := by omega
        have hq1d : (m - 1) / 2 = q := by omega
        rw [hqd, hq1d, Nat.and_self] at hdiv
        omega

theorem log2Fuel_two_pow : ∀ k fuel, 2 ^ k ≤ fuel → log2Fuel fuel (2 ^ k) = k := by
  intro k
  induction k with
  | zero =>
    intro fuel hf
    match fuel, hf with
    | f + 1, _ => simp [log2Fuel]
  | succ k ih =>
    intro fuel hf
    have h2 : 2 ≤ 2 ^ (k + 1) := by
      have := Nat.one_le_two_pow (n := k)
      rw [pow_succ]
      omega
    match fuel, (by omega : 1 ≤ fuel) with
    | f + 1, _ =>
      unfold log2Fuel
      rw [if_pos (by omega)]
      have hhalf : 2 ^ (k + 1) / 2 = 2 ^ k := by
        rw [pow_succ]
        omega
      rw [hhalf, ih f (by
        have := Nat.one_le_two_pow (n := k)
        omega)]

theorem jsLog2_two_pow (k : Nat) : jsLog2 (2 ^ k) = k :=
  log2Fuel_two_pow k (2 ^ k) le_rfl

theorem land_pred_pow {m : Nat} (hm : 0 < m) (h : m &&& (m - 1) = 0) :
    m = 2 ^ jsLog2 m := by
  obtain ⟨k, hk⟩ := pow_of_land_pred m hm h
  rw [hk, jsLog2_two_pow]

theorem aligned_add_pow_le {x k bits : Nat} (hx : x < 2 ^ bits) (hdvd : 2 ^ k ∣ x)
    (hk : k ≤ bits) : x + 2 ^ k ≤ 2 ^ bits := by
  obtain ⟨q, hq⟩ := hdvd
  subst hq
  have hq' : q < 2 ^ (bits - k) := by
    by_contra hq'
    push_neg at hq'
    have : 2 ^ bits ≤ 2 ^ k * q := by
      calc 2 ^ bits = 2 ^ k * 2 ^ (bits - k) := by rw [← pow_add]; congr 1; omega
        _ ≤ 2 ^ k * q := Nat.mul_le_mul_left _ hq'
    omega
  calc 2 ^ k * q + 2 ^ k = 2 ^ k * (q + 1) := by ring
    _ ≤ 2 ^ k * 2 ^ (bits - k) := Nat.mul_le_mul_left _ hq'
    _ = 2 ^ bits := by rw [← pow_add]; congr 1; omega

/-- Every subnet emitted by `splitIntoN` of a well-formed canonical prefix is
itself well-formed, canonical, and of the parent's version and width. -/
theorem splitIntoN_mem_good {cidr : NormalisedCidr} {n : Int}
    {l : List NormalisedCidr} (hw : Wf cidr) (hc : Canonical cidr)
    (h : splitIntoN cidr n = .ok l) :
    ∀ c ∈ l, (Wf c ∧ Canonical c) ∧ c.version = cidr.version ∧ c.bits = cidr.bits := by
  unfold splitIntoN at h
  by_cases hn : n ≤ 0
  · rw [if_pos hn] at h
    exact Except.noConfusion h
  · rw [if_neg hn] at h
    simp only [ok_bind] at h
    set m := n.toNat with hm
    have hmpos : 0 < m := by omega
    by_cases hpow : m &&& (m - 1) ≠ 0
    · rw [if_pos hpow] at h
      exact Except.noConfusion h
    · rw [if_neg hpow] at h
      push_neg at hpow
      simp only [ok_bind, pure_bind] at h
      by_cases hpfx : cidr.prefixLen + jsLog2 m > cidr.bits
      · rw [if_pos hpfx] at h
        exact Except.noConfusion h
      · rw [if_neg hpfx] at h
        simp only [pure_eq_ok] at h
        injection h with h
        subst h
        intro c hcmem
        rw [List.mem_map] at hcmem
        obtain ⟨i, hi, hceq⟩ := hcmem
        rw [List.mem_range] at hi
        subst hceq
        push_neg at hpfx
        set L := jsLog2 m with hL
        have hmL : m = 2 ^ L := land_pred_pow hmpos hpow
        set newPrefix := cidr.prefixLen + L with hNP
        set s := 1 <<< (cidr.bits - newPrefix) with hs
        have hs2 : s = 2 ^ (cidr.bits - newPrefix) := by
          rw [hs, Nat.shiftLeft_eq, one_mul]
        have hdvdP : 2 ^ (cidr.bits - cidr.prefixLen) ∣ cidr.network :=
          Canonical.dvd hw hc
        have hdvdNew : 2 ^ (cidr.bits - newPrefix) ∣ cidr.network :=
          dvd_trans (pow_dvd_pow 2 (by omega)) hdvdP
        have hdvdC : 2 ^ (cidr.bits - newPrefix) ∣ cidr.network + i * s := by
          refine Nat.dvd_add hdvdNew ?_
          rw [hs2]
          exact Dvd.dvd.mul_left dvd_rfl i
        have hms : m * s = 2 ^ (cidr.bits - cidr.prefixLen) := by
          rw [hmL, hs2, ← pow_add]
          congr 1
          omega
        have hlt : cidr.network + i * s < 2 ^ cidr.bits := by
          have hspos : 0 < s := by rw [hs2]; exact Nat.two_pow_pos _
          have hend : cidr.network + 2 ^ (cidr.bits - cidr.prefixLen) ≤ 2 ^ cidr.bits :=
            aligned_add_pow_le hw.2 hdvdP (by omega)
          have : i * s + s ≤ m * s := by
            have : (i + 1) * s ≤ m * s := Nat.mul_le_mul_right s (by omega)
            calc i * s + s = (i + 1) * s := by ring
              _ ≤ m * s := this
          omega
        refine ⟨⟨⟨by simp [hNP]; omega, hlt⟩, ?_⟩, rfl, rfl⟩
        exact canonical_of_dvd (c := ⟨cidr.version, cidr.bits, cidr.network + i * s,
          newPrefix⟩) ⟨by simp [hNP]; omega, hlt⟩ hdvdC

/-- The definition of a non-conflicting pair used by `allocateOne`. -/
def NoConflict (x r : NormalisedCidr) : Prop :=
  containsPrefix x r = false ∧ containsPrefix r x = false ∧ x.network ≠ r.network

theorem NoConflict.symm {x r : NormalisedCidr} (h : NoConflict x r) : NoConflict r x :=
  ⟨h.2.1, h.1, fun he => h.2.2 he.symm⟩

/-- A successful `allocateOne` returns a good candidate that conflicts with
nothing already allocated. -/
theorem allocateOne_some {parent : NormalisedCidr} {req : VlsmRequest}
    {allocated : List NormalisedCidr} {v : Nat} {c : NormalisedCidr}
    (hw : Wf parent) (hc : Canonical parent)
    (h : allocateOne parent req allocated v = .ok (some c)) :
    ((Wf c ∧ Canonical c) ∧ c.version = parent.version ∧ c.bits = parent.bits) ∧
    ∀ r ∈ allocated, NoConflict c r := by
  unfold allocateOne at h
  match hreq : vlsmRequiredPfx parent.bits req v with
  | .error e =>
    rw [hreq] at h
    exact Except.noConfusion h
  | .ok z =>
    rw [hreq] at h
    simp only [ok_bind] at h
    by_cases hlt : z < (parent.prefixLen : Int)
    · rw [if_pos hlt] at h
      exact Option.noConfusion (Except.ok.inj h)
    · rw [if_neg hlt] at h
      simp only [ok_bind, pure_bind] at h
      match hsplit : splitIntoN parent (jsShl1 (z - parent.prefixLen).toNat) with
      | .error e =>
        rw [hsplit] at h
        exact Except.noConfusion h
      | .ok candidates =>
        rw [hsplit] at h
        simp only [ok_bind, pure_eq_ok] at h
        injection h with h
        have hcmem := List.mem_of_find?_eq_some h
        have hcpred := List.find?_some h
        refine ⟨splitIntoN_mem_good hw hc hsplit c hcmem, ?_⟩
        intro r hr
        rw [decide_eq_true_eq] at hcpred
        have hany : allocated.any (fun alloc =>
            containsPrefix c alloc ∨ containsPrefix alloc c ∨
            c.network = alloc.network) = false := by
          rcases Bool.eq_false_or_eq_true (allocated.any _) with ht | hf
          · exact absurd ht hcpred
          · exact hf
        rw [List.any_eq_false] at hany
        have hr' := hany r hr
        rw [decide_eq_true_eq] at hr'
        push_neg at hr'
        have h1 : containsPrefix c r = false := by
          rcases Bool.eq_false_or_eq_true (containsPrefix c r) with ht | hf
          · exact absurd (by exact_mod_cast ht) hr'.1
          · exact hf
        have h2 : containsPrefix r c = false := by
          rcases Bool.eq_false_or_eq_true (containsPrefix r c) with ht | hf
          · exact absurd (by exact_mod_cast ht) hr'.2.1
          · exact hf
        exact ⟨h1, h2, hr'.2.2⟩

/-- The cidrs of the `allocated:true` entries of an allocation batch. -/
def successCidrs (allocs : List VlsmAllocation) : List NormalisedCidr :=
  (allocs.filter (fun a => a.allocated)).map (fun a => a.cidr)

/-- Loop invariant of the allocator: every success is good (well-formed,
canonical, of the parent's version/width), conflicts with nothing in the
incoming `allocated` list, and the successes are pairwise non-conflicting. -/
theorem allocLoop_successes {parent : NormalisedCidr} {v : Nat}
    (hw : Wf parent) (hc : Canonical parent) :
    ∀ (l : List VlsmRequest) (allocated : List NormalisedCidr)
      (allocs : List VlsmAllocation),
      allocLoop parent v l allocated = .ok allocs →
      (∀ x ∈ successCidrs allocs,
        ((Wf x ∧ Canonical x) ∧ x.version = parent.version ∧ x.bits = parent.bits) ∧
        ∀ r ∈ allocated, NoConflict x r) ∧
      List.Pairwise NoConflict (successCidrs allocs) := by
  intro l
  induction l with
  | nil =>
    intro allocated allocs h
    unfold allocLoop at h
    injection h with h
    subst h
    simp [successCidrs]
  | cons req rest ih =>
    intro allocated allocs h
    unfold allocLoop at h
    match hone : allocateOne parent req allocated v with
    | .error e =>
      rw [hone] at h
      exact Except.noConfusion h
    | .ok opt =>
      rw [hone] at h
      simp only [ok_bind] at h
      match opt with
      | some a =>
        dsimp only at h
        match hrec : allocLoop parent v rest (allocated ++ [a]) with
        | .error e =>
          rw [hrec] at h
          exact Except.noConfusion h
        | .ok tailAllocs =>
          rw [hrec] at h
          simp only [ok_bind, pure_eq_ok] at h
          injection h with h
          subst h
          obtain ⟨hGood, hConf⟩ := allocateOne_some hw hc hone
          obtain ⟨ihAll, ihPair⟩ := ih (allocated ++ [a]) tailAllocs hrec
          have hsc : successCidrs
              ({name := req.name, cidr := a, allocated := true} :: tailAllocs) =
              a :: successCidrs tailAllocs := by
            simp [successCidrs]
          rw [hsc]
          refine ⟨?_, ?_⟩
          · intro x hx
            rcases List.mem_cons.mp hx with hxa | hxt
            · subst hxa
              exact ⟨hGood, hConf⟩
            · obtain ⟨hxg, hxc⟩ := ihAll x hxt
              exact ⟨hxg, fun r hr => hxc r (List.mem_append_left _ hr)⟩
          · refine List.Pairwise.cons ?_ ihPair
            intro y hy
            exact ((ihAll y hy).2 a (by simp)).symm
      | none =>
        dsimp only at h
        match hrec : allocLoop parent v rest allocated with
        | .error e =>
          rw [hrec] at h
          exact Except.noConfusion h
        | .ok tailAllocs =>
          rw [hrec] at h
          simp only [ok_bind, pure_eq_ok] at h
          injection h with h
          subst h
          obtain ⟨ihAll, ihPair⟩ := ih allocated tailAllocs hrec
          have hsc : successCidrs
              ({name := req.name, cidr := parent, allocated := false} :: tailAllocs) =
              successCidrs tailAllocs := by
            simp [successCidrs]
          rw [hsc]
          exact ⟨ihAll, ihPair⟩

theorem overlapPair_none_of_noConflict {x y : NormalisedCidr}
    (hwx : Wf x) (hcx : Canonical x) (hwy : Wf y) (hcy : Canonical y)
    (hv : x.version = y.version) (hb : x.bits = y.bits)
    (hnc : NoConflict x y) : overlapPair x y = none := by
  have hdisj : x.network + (2 ^ (x.bits - x.prefixLen) - 1) < y.network ∨
      y.network + (2 ^ (y.bits - y.prefixLen) - 1) < x.network := by
    by_contra hcon
    push_neg at hcon
    rcases canonical_overlap_contains hwx hcx hwy hcy hv hb
      (by omega) (by omega) with hcc | hcc
    · rw [hnc.1] at hcc
      exact Bool.noConfusion hcc
    · rw [hnc.2.1] at hcc
      exact Bool.noConfusion hcc
  unfold overlapPair
  rw [if_neg (by simp [hv, hb])]
  simp only [Nat.shiftLeft_eq, one_mul]
  rw [if_neg (fun hcond => hcond hdisj)]

theorem overlapPairs_nil {l : List NormalisedCidr}
    (h : List.Pairwise (fun x y => overlapPair x y = none) l) :
    overlapPairs l = [] := by
  induction l with
  | nil => rfl
  | cons a rest ih =>
    rw [List.pairwise_cons] at h
    unfold overlapPairs
    rw [List.filterMap_eq_nil_iff.mpr h.1, ih h.2]
    rfl

/-- C6: for any batch returned by `allocateVlsm` on a well-formed canonical
parent, the cidrs of the `allocated:true` entries are pairwise disjoint:
`detectOverlaps` over them reports `hasOverlap = false`. -/
theorem c6_vlsm_allocations_disjoint (parent : NormalisedCidr)
    (requests : List VlsmRequest) (strategy : VlsmStrategy)
    (reserved : List NormalisedCidr) (allocs : List VlsmAllocation)
    (hw : Wf parent) (hc : Canonical parent)
    (h : allocateVlsm parent requests strategy reserved = .ok allocs) :
    (detectOverlaps
      ((allocs.filter (fun a => a.allocated)).map (fun a => a.cidr))).hasOverlap
      = false := by
  unfold allocateVlsm at h
  by_cases hres : reserved.any (fun res => ¬ containsPrefix parent res)
  · rw [if_pos hres] at h
    exact Except.noConfusion h
  · rw [if_neg hres] at h
    simp only [ok_bind] at h
    obtain ⟨hAll, hPair⟩ := allocLoop_successes hw hc _ _ _ h
    have hpw : List.Pairwise (fun x y => overlapPair x y = none)
        (successCidrs allocs) := by
      refine List.Pairwise.imp_of_mem ?_ hPair
      intro a b ha hb hnc
      obtain ⟨⟨⟨hwa, hca⟩, hva, hba⟩, _⟩ := hAll a ha
      obtain ⟨⟨⟨hwb, hcb⟩, hvb, hbb⟩, _⟩ := hAll b hb
      exact overlapPair_none_of_noConflict hwa hca hwb hcb
        (hva.trans hvb.symm) (hba.trans hbb.symm) hnc
    have hnil := overlapPairs_nil hpw
    unfold successCidrs at hnil
    unfold detectOverlaps
    rw [hnil]
    rfl

theorem c6_vlsm_allocations_disjoint_witness :
    (detectOverlaps
      (([(⟨"A", ⟨4, 32, 0xC0A80000, 26⟩, true⟩ : VlsmAllocation),
         ⟨"B", ⟨4, 32, 0xC0A80040, 26⟩, true⟩].filter
           (fun a => a.allocated)).map (fun a => a.cidr))).hasOverlap = false :=
  c6_vlsm_allocations_disjoint ⟨4, 32, 0xC0A80000, 24⟩
    [⟨"A", none, some 26⟩, ⟨"B", none, some 26⟩] .LARGEST_FIRST [] _
    (by decide) (by decide)
    (by
      have hsort : sortRequestsByStrategy
          [⟨"A", none, some 26⟩, ⟨"B", none, some 26⟩] .LARGEST_FIRST 4 =
          [⟨"A", none, some 26⟩, ⟨"B", none, some 26⟩] := by
        simp [sortRequestsByStrategy, List.mergeSort, List.splitInTwo, List.merge,
          getSize]
      unfold allocateVlsm
      rw [if_neg (by decide)]
      dsimp only
      rw [hsort]
      decide)

/-! ### Claim C4 -/

/-- Masking with the same mask twice is masking once: any value of the form
`x &&& mask(p, bits)` satisfies the mask invariant. -/
theorem canonical_and (v b x p : Nat) : Canonical ⟨v, b, x &&& maskVal p b, p⟩ := by
  unfold Canonical
  simp only
  rw [Nat.and_assoc, Nat.and_self]

theorem ipv4_fold_bound :
    ∀ (parts : List (List Char)) (acc n : Nat),
      parts.foldlM ipv4OctetStep acc = .ok n →
      n < (acc + 1) * 256 ^ parts.length := by
  intro parts
  induction parts with
  | nil =>
    intro acc n h
    rw [List.foldlM_nil] at h
    injection h with h
    subst h
    simp
  | cons p rest ih =>
    intro acc n h
    rw [List.foldlM_cons] at h
    unfold ipv4OctetStep at h
    by_cases hre : ¬ (p ≠ [] ∧ p.all isDigitCh)
    · rw [if_pos hre] at h
      exact Except.noConfusion h
    · rw [if_neg hre] at h
      simp only [pure_bind] at h
      by_cases hv : decVal p > 255
      · rw [if_pos hv] at h
        exact Except.noConfusion h
      · rw [if_neg hv] at h
        simp only [pure_bind] at h
        have := ih (acc * 256 + decVal p) n h
        have hstep : acc * 256 + decVal p + 1 ≤ (acc + 1) * 256 := by
          push_neg at hv
          nlinarith
        calc n < (acc * 256 + decVal p + 1) * 256 ^ rest.length := this
          _ ≤ ((acc + 1) * 256) * 256 ^ rest.length :=
            Nat.mul_le_mul_right _ hstep
          _ = (acc + 1) * 256 ^ (rest.length + 1) := by ring
          _ = (acc + 1) * 256 ^ (p :: rest).length := by rw [List.length_cons]

theorem ipv4ToBigInt_lt {s : String} {n : Nat} (h : ipv4ToBigInt s = .ok n) :
    n < 2 ^ 32 := by
  unfold ipv4ToBigInt at h
  set parts := splitOnChar '.' (jsTrim s.data) with hparts
  by_cases hlen : parts.length ≠ 4
  · rw [if_pos hlen] at h
    exact Except.noConfusion h
  · rw [if_neg hlen] at h
    simp only [pure_bind] at h
    push_neg at hlen
    have := ipv4_fold_bound parts 0 n h
    rw [hlen] at this
    norm_num at this
    omega

theorem hextets_fold_bound :
    ∀ (hextets : List (List Char)) (acc n : Nat),
      hextets.foldlM hextetStep acc = .ok n →
      n < (acc + 1) * 65536 ^ hextets.length := by
  intro hextets
  induction hextets with
  | nil =>
    intro acc n h
    rw [List.foldlM_nil] at h
    injection h with h
    subst h
    simp
  | cons hx rest ih =>
    intro acc n h
    rw [List.foldlM_cons] at h
    unfold hextetStep at h
    by_cases h0 : hx.length = 0
    · rw [if_pos h0] at h
      exact Except.noConfusion h
    · rw [if_neg h0] at h
      simp only [pure_bind] at h
      by_cases hre : ¬ (1 ≤ hx.length ∧ hx.length ≤ 4 ∧ hx.all isHexCh)
      · rw [if_pos hre] at h
        exact Except.noConfusion h
      · rw [if_neg hre] at h
        try simp only [pure_bind] at h
        by_cases hv : hexVal hx > 0xffff
        · rw [if_pos hv] at h
          exact Except.noConfusion h
        · rw [if_neg hv] at h
          simp only [pure_bind] at h
          have := ih ((acc <<< 16) + hexVal hx) n h
          have hsh : acc <<< 16 = acc * 65536 := by
            simp [Nat.shiftLeft_eq]
          have hstep : (acc <<< 16) + hexVal hx + 1 ≤ (acc + 1) * 65536 := by
            push_neg at hv
            rw [hsh]
            nlinarith
          calc n < ((acc <<< 16) + hexVal hx + 1) * 65536 ^ rest.length := this
            _ ≤ ((acc + 1) * 65536) * 65536 ^ rest.length :=
              Nat.mul_le_mul_right _ hstep
            _ = (acc + 1) * 65536 ^ (rest.length + 1) := by ring
            _ = (acc + 1) * 65536 ^ (hx :: rest).length := by rw [List.length_cons]

theorem hextetsToBigInt_lt {hextets : List (List Char)} {n : Nat}
    (hlen : hextets.length = 8) (h : hextetsToBigInt hextets = .ok n) :
    n < 2 ^ 128 := by
  unfold hextetsToBigInt at h
  have := hextets_fold_bound hextets 0 n h
  rw [hlen] at this
  norm_num at this
  omega

theorem ipv6Hextets_length {s : List Char} {hx : List (List Char)}
    (h : ipv6Hextets s = .ok hx) : hx.length = 8 := by
  unfold ipv6Hextets at h
  dsimp only at h
  repeat' split at h
  all_goals
    first
    | exact Except.noConfusion h
    | (injection h with h; subst h; omega)

theorem ipv6ToBigInt_lt {s : String} {n : Nat} (h : ipv6ToBigInt s = .ok n) :
    n < 2 ^ 128 := by
  unfold ipv6ToBigInt at h
  by_cases hz : ((stripZoneIndex (jsTrim s.data)).map Char.toLower).length = 0
  · rw [if_pos hz] at h
    exact Except.noConfusion h
  · rw [if_neg hz] at h
    try simp only [pure_bind] at h
    match hex : expandEmbeddedIpv4 ((stripZoneIndex (jsTrim s.data)).map Char.toLower) with
    | .error e =>
      rw [hex] at h
      exact Except.noConfusion h
    | .ok str =>
      rw [hex] at h
      simp only [ok_bind] at h
      match hhx : ipv6Hextets str with
      | .error e =>
        rw [hhx] at h
        exact Except.noConfusion h
      | .ok hx =>
        rw [hhx] at h
        simp only [ok_bind] at h
        exact hextetsToBigInt_lt (ipv6Hextets_length hhx) h


theorem bind_eq_ok {α β : Type} {x : Except Err α} {f : α → Except Err β} {b : β} :
    (x >>= f) = .ok b ↔ ∃ a, x = .ok a ∧ f a = .ok b := by
  cases x with
  | error e => simp [Except.instMonad, Except.bind]
  | ok a => simp [Except.instMonad, Except.bind]

theorem assertIntegerInRange_ok {n lo hi : Nat} {msg : String} {u : Unit}
    (h : assertIntegerInRange n lo hi msg = .ok u) : lo ≤ n ∧ n ≤ hi := by
  unfold assertIntegerInRange at h
  split at h
  · exact Except.noConfusion h
  · rename_i hcond
    push_neg at hcond
    omega

theorem maskFromPrefix_ok_inv {p bits m : Nat}
    (h : maskFromPrefix p bits = .ok m) : m = maskVal p bits ∧ p ≤ bits := by
  have hle : p ≤ bits := by
    have h' := h
    unfold maskFromPrefix at h'
    rw [bind_eq_ok] at h'
    obtain ⟨u, hu, _⟩ := h'
    exact (assertIntegerInRange_ok hu).2
  rw [maskFromPrefix_ok hle] at h
  injection h with h
  exact ⟨h.symm, hle⟩

set_option maxHeartbeats 2000000 in
theorem parseCidr_canonical {s : String} {c : NormalisedCidr}
    (h : parseCidr s = .ok c) : Canonical c := by
  unfold parseCidr at h
  dsimp only at h
  repeat' split at h
  all_goals
    first
    | exact Except.noConfusion h
    | (simp only [bind_eq_ok, pure_eq_ok, Except.ok.injEq, exists_eq_left,
         exists_const, true_and] at h
       obtain ⟨u, hu, ip, hip, m, hm, h⟩ := h
       subst h
       obtain ⟨hmv, hple⟩ := maskFromPrefix_ok_inv hm
       subst hmv
       exact canonical_and _ _ _ _)

set_option maxHeartbeats 2000000 in
theorem parseCidrWithNetmask_canonical {a b : String} {c : NormalisedCidr}
    (h : parseCidrWithNetmask a b = .ok c) : Canonical c := by
  unfold parseCidrWithNetmask at h
  dsimp only at h
  repeat' split at h
  all_goals
    first
    | exact Except.noConfusion h
    | (simp only [bind_eq_ok, pure_eq_ok, Except.ok.injEq, exists_eq_left,
         exists_const, true_and] at h
       obtain ⟨ip, hip, mv, hmv, m, hm, h⟩ := h
       split at h
       · exact Except.noConfusion h
       · rename_i hne
         push_neg at hne
         injection h with h
         subst h
         obtain ⟨hmval, hple⟩ := maskFromPrefix_ok_inv hm
         have hmm : maskVal (countLeadingOnes mv _) _ = mv := hmval.symm.trans hne.symm
         unfold Canonical
         simp only [hmm]
         rw [Nat.and_assoc, Nat.and_self])

theorem tzCountAux_dvd :
    ∀ (rem temp acc x : Nat), x >>> acc = temp → 2 ^ acc ∣ x →
      2 ^ (tzCountAux rem temp acc) ∣ x := by
  intro rem
  induction rem with
  | zero => intro temp acc x hsh hdvd; exact hdvd
  | succ rem ih =>
    intro temp acc x hsh hdvd
    unfold tzCountAux
    by_cases hbit : temp &&& 1 = 0
    · rw [if_pos hbit]
      obtain ⟨q, hq⟩ := hdvd
      have hqt : q = temp := by
        rw [← hsh, hq, Nat.shiftRight_eq_div_pow, Nat.mul_div_cancel_left _ (Nat.two_pow_pos acc)]
      have hq2 : 2 ∣ q := by
        rw [Nat.and_one_is_mod] at hbit
        rw [hqt]
        omega
      obtain ⟨q2, hq2e⟩ := hq2
      refine ih (temp >>> 1) (acc + 1) x ?_ ?_
      · rw [← hsh, Nat.shiftRight_add]
      · exact ⟨q2, by rw [hq, hq2e, pow_succ]; ring⟩
    · rw [if_neg hbit]
      exact hdvd

theorem tzCount_dvd (x bits : Nat) : 2 ^ (tzCount x bits) ∣ x :=
  tzCountAux_dvd bits x 0 x (by simp) (by simp)

theorem tzCountAux_le : ∀ rem temp acc, tzCountAux rem temp acc ≤ acc + rem := by
  intro rem
  induction rem with
  | zero => intro temp acc; simp [tzCountAux]
  | succ rem ih =>
    intro temp acc
    unfold tzCountAux
    split
    · have := ih (temp >>> 1) (acc + 1)
      omega
    · omega

theorem tzCount_le (x bits : Nat) : tzCount x bits ≤ bits := by
  simpa using tzCountAux_le bits x 0

theorem rangePickPrefix_bounds (current endInt bits : Nat) :
    rangePickPrefix current endInt bits ≤ bits ∧
    bits - rangePickPrefix current endInt bits ≤ tzCount current bits := by
  unfold rangePickPrefix
  dsimp only
  match hfind : (List.range' (bits - tzCount current bits) (tzCount current bits + 1)).find?
      (fun p => current + (1 <<< (bits - p)) - 1 ≤ endInt) with
  | none =>
    simp
  | some p =>
    have hmem := List.mem_of_find?_eq_some hfind
    rw [List.mem_range'_1] at hmem
    have hle := tzCount_le current bits
    simp only [Option.getD_some]
    omega

theorem rangeLoop_canonical (version bits endInt : Nat) (hend : endInt < 2 ^ bits) :
    ∀ fuel current, ∀ c ∈ rangeLoop version bits endInt fuel current, Canonical c := by
  intro fuel
  induction fuel with
  | zero =>
    intro current c hc
    simp [rangeLoop] at hc
  | succ fuel ih =>
    intro current c hc
    unfold rangeLoop at hc
    by_cases hgt : current > endInt
    · rw [if_pos hgt] at hc
      simp at hc
    · rw [if_neg hgt] at hc
      rcases List.mem_cons.mp hc with hc | hc
      · subst hc
        exact canonical_of_dvd
          ⟨(rangePickPrefix_bounds current endInt bits).1, by dsimp only; omega⟩
          (dvd_trans (pow_dvd_pow 2 (rangePickPrefix_bounds current endInt bits).2)
            (tzCount_dvd current bits))
      · split at hc
        · simp at hc
        · exact ih _ c hc

theorem rangeToMinimalPrefixes_canonical {a b : String} {l : List NormalisedCidr}
    (h : rangeToMinimalPrefixes a b = .ok l) : ∀ c ∈ l, Canonical c := by
  unfold rangeToMinimalPrefixes at h
  dsimp only at h
  repeat' split at h
  all_goals
    first
    | exact Except.noConfusion h
    | (rename_i hv6
       simp only [bind_eq_ok, pure_eq_ok, Except.ok.injEq, exists_eq_left,
         exists_const, true_and] at h
       obtain ⟨startInt, hstart, endInt, hend, h⟩ := h
       split at h
       · exact Except.noConfusion h
       · injection h with h
         subst h
         first
         | exact rangeLoop_canonical _ _ _ (ipv6ToBigInt_lt hend) _ _
         | exact rangeLoop_canonical _ _ _ (ipv4ToBigInt_lt hend) _ _)

theorem splitBinary_canonical {c : NormalisedCidr} {lr : NormalisedCidr × NormalisedCidr}
    (hw : Wf c) (hc : Canonical c) (h : splitBinary c = .ok lr) :
    Canonical lr.1 ∧ Canonical lr.2 := by
  unfold splitBinary at h
  split at h
  · exact Except.noConfusion h
  · rename_i hge
    push_neg at hge
    rw [pure_eq_ok] at h
    injection h with h
    subst h
    have hdvdP : 2 ^ (c.bits - c.prefixLen) ∣ c.network := Canonical.dvd hw hc
    have hdvdC : 2 ^ (c.bits - (c.prefixLen + 1)) ∣ c.network :=
      dvd_trans (pow_dvd_pow 2 (by omega)) hdvdP
    have hsz : (1 : Nat) <<< (c.bits - (c.prefixLen + 1)) = 2 ^ (c.bits - (c.prefixLen + 1)) := by
      rw [Nat.shiftLeft_eq, one_mul]
    constructor
    · exact canonical_of_dvd ⟨by dsimp only; omega, by dsimp only; exact hw.2⟩ hdvdC
    · have hend : c.network + 2 ^ (c.bits - c.prefixLen) ≤ 2 ^ c.bits :=
        aligned_add_pow_le hw.2 hdvdP (by omega)
      have hhalf : 2 ^ (c.bits - (c.prefixLen + 1)) < 2 ^ (c.bits - c.prefixLen) :=
        Nat.pow_lt_pow_right (by norm_num) (by omega)
      refine canonical_of_dvd ⟨by dsimp only; omega, by dsimp only; rw [hsz]; omega⟩ ?_
      dsimp only
      rw [hsz]
      exact Nat.dvd_add hdvdC dvd_rfl

theorem mergeSiblings_ok_canonical {a b c : NormalisedCidr}
    (h : mergeSiblings a b = .ok c) : Canonical c := by
  unfold mergeSiblings at h
  dsimp only at h
  repeat' split at h
  all_goals try exact Except.noConfusion h
  simp only [bind_eq_ok, pure_eq_ok, Except.ok.injEq, exists_eq_left,
    exists_const, true_and] at h
  obtain ⟨m, hm, h⟩ := h
  obtain ⟨hmval, hple⟩ := maskFromPrefix_ok_inv hm
  try dsimp only at h
  repeat' split at h
  all_goals try exact Except.noConfusion h
  all_goals try simp_all only []
  simp only [bind_eq_ok, pure_eq_ok, Except.ok.injEq, exists_eq_left,
    exists_const, true_and] at h
  obtain ⟨lr, hlr, h⟩ := h
  try dsimp only at h
  repeat' split at h
  all_goals try exact Except.noConfusion h
  simp only [ok_bind, pure_eq_ok] at h
  injection h with h
  subst h
  exact canonical_and _ _ _ _

theorem summarizePass_canonical : ∀ (n : Nat) (l : List NormalisedCidr),
    l.length ≤ n → (∀ x ∈ l, Canonical x) →
    ∀ x ∈ (summarizePass l).1, Canonical x := by
  intro n
  induction n with
  | zero =>
    intro l hl hin x hx
    have : l = [] := List.eq_nil_of_length_eq_zero (by omega)
    subst this
    simp [summarizePass] at hx
  | succ n ih =>
    intro l hl hin
    rcases l with _ | ⟨a0, l1⟩
    · intro x hx
      simp [summarizePass] at hx
    · rcases l1 with _ | ⟨b0, rest⟩
      · intro x hx
        simp [summarizePass] at hx
        subst hx
        exact hin _ (by simp)
      · intro x hx
        rcases hm : mergeSiblings a0 b0 with e | merged
        · simp only [summarizePass, hm] at hx
          rcases List.mem_cons.mp hx with hx | hx
          · subst hx
            exact hin _ (by simp)
          · refine ih (b0 :: rest) ?_ (fun y hy => hin y ?_) x hx
            · simp at hl ⊢
              omega
            · rcases List.mem_cons.mp hy with hy | hy
              · simp [hy]
              · simp [hy]
        · simp only [summarizePass, hm] at hx
          rcases List.mem_cons.mp hx with hx | hx
          · subst hx
            exact mergeSiblings_ok_canonical hm
          · refine ih rest ?_ (fun y hy => hin y (by simp [hy])) x hx
            simp at hl
            omega

theorem summarizeLoop_canonical : ∀ (fuel : Nat) (l : List NormalisedCidr),
    (∀ x ∈ l, Canonical x) → ∀ x ∈ summarizeLoop fuel l, Canonical x := by
  intro fuel
  induction fuel with
  | zero =>
    intro l hin x hx
    unfold summarizeLoop at hx
    exact hin x hx
  | succ fuel ih =>
    intro l hin x hx
    unfold summarizeLoop at hx
    dsimp only at hx
    split at hx
    · exact ih _ (summarizePass_canonical l.length l le_rfl hin) x hx
    · exact summarizePass_canonical l.length l le_rfl hin x hx

theorem summarizePrefixes_canonical {cidrs r : List NormalisedCidr}
    (hin : ∀ x ∈ cidrs, Canonical x) (h : summarizePrefixes cidrs = .ok r) :
    ∀ x ∈ r, Canonical x := by
  rcases cidrs with _ | ⟨c0, l1⟩
  · unfold summarizePrefixes at h
    rw [pure_eq_ok] at h
    injection h with h
    subst h
    simp
  · rcases l1 with _ | ⟨c1, rest⟩
    · unfold summarizePrefixes at h
      rw [pure_eq_ok] at h
      injection h with h
      subst h
      intro x hx
      simp at hx
      subst hx
      exact hin _ (by simp)
    · unfold summarizePrefixes at h
      dsimp only at h
      split at h
      · exact Except.noConfusion h
      · rw [pure_eq_ok] at h
        injection h with h
        subst h
        refine summarizeLoop_canonical _ _ ?_
        intro y hy
        refine hin y ?_
        exact (List.mergeSort_perm (c0 :: c1 :: rest) _).mem_iff.mp hy

theorem minimalCoveringSupernet_canonical {cidrs : List NormalisedCidr}
    {c : NormalisedCidr} (hin : ∀ x ∈ cidrs, Canonical x)
    (h : minimalCoveringSupernet cidrs = .ok c) : Canonical c := by
  rcases cidrs with _ | ⟨c0, rest⟩
  · unfold minimalCoveringSupernet at h
    exact Except.noConfusion h
  · unfold minimalCoveringSupernet at h
    dsimp only at h
    split at h
    · rw [pure_eq_ok] at h
      injection h with h
      subst h
      exact hin c0 (by simp)
    · split at h
      · exact Except.noConfusion h
      · simp only [bind_eq_ok, pure_eq_ok, Except.ok.injEq, exists_eq_left,
          exists_const, true_and] at h
        obtain ⟨m, hm, h⟩ := h
        obtain ⟨hmval, hple⟩ := maskFromPrefix_ok_inv hm
        subst h
        rw [hmval]
        exact canonical_and _ _ _ _

theorem intersectPrefixes_canonical {a b c : NormalisedCidr}
    (hwa : Wf a) (hca : Canonical a) (hwb : Wf b) (hcb : Canonical b)
    (h : intersectPrefixes a b = some c) : Canonical c := by
  unfold intersectPrefixes at h
  split at h
  · exact Option.noConfusion h
  · rename_i hvb
    push_neg at hvb
    dsimp only at h
    split at h
    · exact Option.noConfusion h
    · rename_i hov
      push_neg at hov
      split at h
      · injection h with h
        subst h
        exact hcb
      · split at h
        · injection h with h
          subst h
          exact hca
        · rename_i hnab hnba
          exfalso
          have hov1 : b.network ≤ a.network + (2 ^ (a.bits - a.prefixLen) - 1) := by
            have := hov.1
            rw [Nat.shiftLeft_eq, one_mul] at this
            omega
          have hov2 : a.network ≤ b.network + (2 ^ (b.bits - b.prefixLen) - 1) := by
            have := hov.2
            rw [Nat.shiftLeft_eq, one_mul] at this
            omega
          rcases canonical_overlap_contains hwa hca hwb hcb hvb.1 hvb.2 hov1 hov2 with
            hab | hba
          · exact hnab hab
          · exact hnba hba

theorem allocLoop_canonical {parent : NormalisedCidr} {v : Nat}
    (hw : Wf parent) (hc : Canonical parent) :
    ∀ (l : List VlsmRequest) (allocated : List NormalisedCidr)
      (allocs : List VlsmAllocation),
      allocLoop parent v l allocated = .ok allocs →
      ∀ a ∈ allocs, Canonical a.cidr := by
  intro l
  induction l with
  | nil =>
    intro allocated allocs h a ha
    unfold allocLoop at h
    rw [pure_eq_ok] at h
    injection h with h
    subst h
    simp at ha
  | cons req rest ih =>
    intro allocated allocs h a ha
    unfold allocLoop at h
    match hone : allocateOne parent req allocated v with
    | .error e =>
      rw [hone] at h
      exact Except.noConfusion h
    | .ok (some x) =>
      rw [hone] at h
      simp only [ok_bind] at h
      match htail : allocLoop parent v rest (allocated ++ [x]) with
      | .error e =>
        rw [htail] at h
        exact Except.noConfusion h
      | .ok tailAllocs =>
        rw [htail] at h
        simp only [ok_bind, pure_eq_ok] at h
        injection h with h
        subst h
        rcases List.mem_cons.mp ha with ha | ha
        · subst ha
          exact ((allocateOne_some hw hc hone).1.1).2
        · exact ih _ _ htail a ha
    | .ok none =>
      rw [hone] at h
      simp only [ok_bind] at h
      match htail : allocLoop parent v rest allocated with
      | .error e =>
        rw [htail] at h
        exact Except.noConfusion h
      | .ok tailAllocs =>
        rw [htail] at h
        simp only [ok_bind, pure_eq_ok] at h
        injection h with h
        subst h
        rcases List.mem_cons.mp ha with ha | ha
        · subst ha
          exact hc
        · exact ih _ _ htail a ha

theorem allocateVlsm_canonical {parent : NormalisedCidr} {requests : List VlsmRequest}
    {strategy : VlsmStrategy} {reserved : List NormalisedCidr}
    {allocs : List VlsmAllocation} (hw : Wf parent) (hc : Canonical parent)
    (h : allocateVlsm parent requests strategy reserved = .ok allocs) :
    ∀ a ∈ allocs, Canonical a.cidr := by
  unfold allocateVlsm at h
  dsimp only at h
  split at h
  · exact Except.noConfusion h
  · rw [pure_bind] at h
    exact allocLoop_canonical hw hc _ _ _ h

/-- C4: the mask invariant.  Every `NormalisedCidr` produced by any core
function — `parseCidr`, `parseCidrWithNetmask`, `rangeToMinimalPrefixes`,
`splitBinary`, `splitIntoN`, `mergeSiblings`, `summarizePrefixes`,
`minimalCoveringSupernet`, `intersectPrefixes` and `allocateVlsm` —
satisfies `network = network &&& maskVal prefixLen bits` (the `Canonical`
predicate).  The parsers establish the invariant unconditionally; the
transformations and set operations, whose inputs are `NormalisedCidr`
values assumed to satisfy the type's invariant, preserve it (well-formed
canonical inputs in, canonical outputs out; `mergeSiblings` and the
non-singleton branch of `minimalCoveringSupernet` even re-establish it
unconditionally by masking, and the failed entries of `allocateVlsm` carry
the canonical parent). -/
theorem c4_mask_invariant :
    (∀ (s : String) (c : NormalisedCidr), parseCidr s = .ok c → Canonical c) ∧
    (∀ (a b : String) (c : NormalisedCidr),
      parseCidrWithNetmask a b = .ok c → Canonical c) ∧
    (∀ (a b : String) (l : List NormalisedCidr),
      rangeToMinimalPrefixes a b = .ok l → ∀ c ∈ l, Canonical c) ∧
    (∀ (c : NormalisedCidr) (lr : NormalisedCidr × NormalisedCidr),
      Wf c → Canonical c → splitBinary c = .ok lr →
      Canonical lr.1 ∧ Canonical lr.2) ∧
    (∀ (c : NormalisedCidr) (n : Int) (l : List NormalisedCidr),
      Wf c → Canonical c → splitIntoN c n = .ok l → ∀ x ∈ l, Canonical x) ∧
    (∀ (a b c : NormalisedCidr), mergeSiblings a b = .ok c → Canonical c) ∧
    (∀ (l r : List NormalisedCidr), (∀ x ∈ l, Canonical x) →
      summarizePrefixes l = .ok r → ∀ x ∈ r, Canonical x) ∧
    (∀ (l : List NormalisedCidr) (c : NormalisedCidr), (∀ x ∈ l, Canonical x) →
      minimalCoveringSupernet l = .ok c → Canonical c) ∧
    (∀ (a b c : NormalisedCidr), Wf a → Canonical a → Wf b → Canonical b →
      intersectPrefixes a b = some c → Canonical c) ∧
    (∀ (parent : NormalisedCidr) (requests : List VlsmRequest)
      (strategy : VlsmStrategy) (reserved : List NormalisedCidr)
      (allocs : List VlsmAllocation), Wf parent → Canonical parent →
      allocateVlsm parent requests strategy reserved = .ok allocs →
      ∀ a ∈ allocs, Canonical a.cidr) :=
  ⟨fun _ _ h => parseCidr_canonical h,
   fun _ _ _ h => parseCidrWithNetmask_canonical h,
   fun _ _ _ h c hc => rangeToMinimalPrefixes_canonical h c hc,
   fun _ _ hw hc h => splitBinary_canonical hw hc h,
   fun _ _ _ hw hc h x hx => ((splitIntoN_mem_good hw hc h x hx).1).2,
   fun _ _ _ h => mergeSiblings_ok_canonical h,
   fun _ _ hin h => summarizePrefixes_canonical hin h,
   fun _ _ hin h => minimalCoveringSupernet_canonical hin h,
   fun _ _ _ hwa hca hwb hcb h => intersectPrefixes_canonical hwa hca hwb hcb h,
   fun _ _ _ _ _ hw hc h => allocateVlsm_canonical hw hc h⟩

theorem c4_mask_invariant_witness :
    Canonical ⟨4, 32, 0x0A000000, 24⟩ ∧
    Canonical ⟨4, 32, 0xC0A80100, 24⟩ ∧
    Canonical ⟨4, 32, 0x0A000004, 30⟩ ∧
    (Canonical ⟨4, 32, 0xC0A80000, 25⟩ ∧ Canonical ⟨4, 32, 0xC0A80080, 25⟩) ∧
    Canonical ⟨4, 32, 0x0A000180, 25⟩ ∧
    Canonical ⟨4, 32, 0x0A000800, 24⟩ ∧
    Canonical ⟨4, 32, 0x0B000000, 16⟩ ∧
    Canonical ⟨4, 32, 0, 0⟩ ∧
    Canonical ⟨4, 32, 0xC0A80000, 16⟩ ∧
    Canonical ⟨4, 32, 0xC0A80000, 26⟩ := by
  obtain ⟨h1, h2, h3, h4, h5, h6, h7, h8, h9, h10⟩ := c4_mask_invariant
  refine ⟨?_, ?_, ?_, ?_, ?_, ?_, ?_, ?_, ?_, ?_⟩
  · exact h1 "10.0.0.1/24" _ (by decide)
  · exact h2 "192.168.1.7" "255.255.255.0" _ (by decide)
  · exact h3 "10.0.0.4" "10.0.0.7" [⟨4, 32, 0x0A000004, 30⟩] (by decide) _ (by decide)
  · exact h4 ⟨4, 32, 0xC0A80000, 24⟩
      (⟨4, 32, 0xC0A80000, 25⟩, ⟨4, 32, 0xC0A80080, 25⟩)
      (by decide) (by decide) (by decide)
  · exact h5 ⟨4, 32, 0x0A000000, 23⟩ 4
      [⟨4, 32, 0x0A000000, 25⟩, ⟨4, 32, 0x0A000080, 25⟩,
       ⟨4, 32, 0x0A000100, 25⟩, ⟨4, 32, 0x0A000180, 25⟩]
      (by decide) (by decide) (by decide) _ (by decide)
  · exact h6 ⟨4, 32, 0x0A000800, 25⟩ ⟨4, 32, 0x0A000880, 25⟩ _ (by decide)
  · exact h7 [⟨4, 32, 0x0B000000, 16⟩] [⟨4, 32, 0x0B000000, 16⟩]
      (by decide) (by decide) _ (by decide)
  · exact h8 [⟨4, 32, 0xC0A80100, 24⟩, ⟨4, 32, 0xC0A80200, 24⟩] _
      (by decide) (by decide)
  · exact h9 ⟨4, 32, 0xC0000000, 8⟩ ⟨4, 32, 0xC0A80000, 16⟩ _
      (by decide) (by decide) (by decide) (by decide) (by decide)
  · exact h10 ⟨4, 32, 0xC0A80000, 24⟩
      [⟨"Small", none, some 27⟩, ⟨"Large", none, some 26⟩] .LARGEST_FIRST [] _
      (by decide) (by decide) allocateVlsm_eval_two_requests
      ⟨"Large", ⟨4, 32, 0xC0A80000, 26⟩, true⟩ (by decide)

/-! ### Claim C7: IPv6 zero-run compression -/

/-- Number of adjacent `::` positions in a character list (counting every
index `i` with both `cs[i]` and `cs[i+1]` equal to `:`). -/
def colonPairCount : List Char → Nat
  | a :: b :: t => (if a = ':' ∧ b = ':' then 1 else 0) + colonPairCount (b :: t)
  | _ => 0

theorem colonPairCount_append (xs ys : List Char) :
    colonPairCount (xs ++ ys) =
      colonPairCount xs + colonPairCount ys +
        (match xs.getLast?, ys.head? with
         | some a, some b => if a = ':' ∧ b = ':' then 1 else 0
         | _, _ => 0) := by
  induction xs with
  | nil => simp [colonPairCount]
  | cons a xs ih =>
    cases xs with
    | nil =>
      cases ys with
      | nil => simp [colonPairCount]
      | cons b t => simp [colonPairCount]; omega
    | cons a2 xs2 =>
      have hlast : (a :: a2 :: xs2).getLast? = (a2 :: xs2).getLast? := by
        rw [List.getLast?_cons_cons]
      rw [List.cons_append, List.cons_append]
      show (if a = ':' ∧ a2 = ':' then 1 else 0) +
          colonPairCount (a2 :: (xs2 ++ ys)) = _
      rw [← List.cons_append, ih, hlast]
      show _ = (if a = ':' ∧ a2 = ':' then 1 else 0) + colonPairCount (a2 :: xs2) +
        colonPairCount ys + _
      omega

theorem colonPairCount_zero_of_no_colon {l : List Char} (h : ':' ∉ l) :
    colonPairCount l = 0 := by
  induction l with
  | nil => rfl
  | cons a t ih =>
    cases t with
    | nil => rfl
    | cons b t2 =>
      have ha : a ≠ ':' := fun he => h (he ▸ List.mem_cons_self a _)
      show (if a = ':' ∧ b = ':' then 1 else 0) + colonPairCount (b :: t2) = 0
      rw [if_neg (fun hc => ha hc.1), ih (fun hm => h (List.mem_cons_of_mem a hm))]

theorem colonPairCount_cons_of_head {a : Char} {l : List Char}
    (h : l.head? ≠ some ':') : colonPairCount (a :: l) = colonPairCount l := by
  cases l with
  | nil => rfl
  | cons b t =>
    have hb : b ≠ ':' := fun he => h (by rw [List.head?_cons, he])
    show (if a = ':' ∧ b = ':' then 1 else 0) + colonPairCount (b :: t) = _
    rw [if_neg (fun hc => hb hc.2)]
    omega

theorem digitChar_ne_colon {m : Nat} (h : m < 16) : Nat.digitChar m ≠ ':' := by
  interval_cases m <;> decide

theorem digitsCore_no_colon (fuel : Nat) : ∀ n, ':' ∉ digitsCore 16 fuel n := by
  induction fuel with
  | zero => intro n; simp [digitsCore]
  | succ fuel ih =>
    intro n
    unfold digitsCore
    split
    · rename_i hn
      simp only [List.mem_singleton]
      exact fun he => digitChar_ne_colon hn he.symm
    · rw [List.mem_append]
      rintro (hm | hm)
      · exact ih (n / 16) hm
      · simp only [List.mem_singleton] at hm
        exact digitChar_ne_colon (Nat.mod_lt _ (by norm_num)) hm.symm

theorem hexStr_no_colon (n : Nat) : ':' ∉ hexStr n := digitsCore_no_colon _ n

theorem hexStr_ne_nil (n : Nat) : hexStr n ≠ [] := by
  unfold hexStr digitsCore
  split
  · simp
  · simp

theorem joinColon_ne_nil {ps : List (List Char)} (hps : ps ≠ [])
    (h : ∀ p ∈ ps, p ≠ []) : joinColon ps ≠ [] := by
  match ps with
  | [p] => exact h p (by simp)
  | p :: p2 :: rest =>
    show p ++ ':' :: joinColon (p2 :: rest) ≠ []
    simp

theorem joinColon_head {ps : List (List Char)}
    (h : ∀ p ∈ ps, p ≠ [] ∧ ':' ∉ p) : (joinColon ps).head? ≠ some ':' := by
  match ps with
  | [] => simp [joinColon]
  | [p] =>
    show p.head? ≠ some ':'
    obtain ⟨hne, hnc⟩ := h p (by simp)
    cases p with
    | nil => simp
    | cons c t =>
      rw [List.head?_cons]
      intro he
      injection he with he
      exact hnc (he ▸ List.mem_cons_self c t)
  | p :: p2 :: rest =>
    show (p ++ ':' :: joinColon (p2 :: rest)).head? ≠ some ':'
    obtain ⟨hne, hnc⟩ := h p (by simp)
    cases p with
    | nil => exact absurd rfl hne
    | cons c t =>
      rw [List.cons_append, List.head?_cons]
      intro he
      injection he with he
      exact hnc (he ▸ List.mem_cons_self c t)

theorem mem_of_getLast?_eq_some {l : List Char} {a : Char}
    (h : l.getLast? = some a) : a ∈ l := by
  obtain ⟨hne, heq⟩ := List.mem_getLast?_eq_getLast (show a ∈ l.getLast? from h)
  rw [heq]
  exact List.getLast_mem hne

theorem joinColon_last : ∀ {ps : List (List Char)},
    (∀ p ∈ ps, p ≠ [] ∧ ':' ∉ p) → (joinColon ps).getLast? ≠ some ':'
  | [], _ => by simp [joinColon]
  | [p], h => by
    show p.getLast? ≠ some ':'
    obtain ⟨hne, hnc⟩ := h p (by simp)
    intro he
    exact hnc (mem_of_getLast?_eq_some he)
  | p :: p2 :: rest, h => by
    show (p ++ ':' :: joinColon (p2 :: rest)).getLast? ≠ some ':'
    have htail : joinColon (p2 :: rest) ≠ [] :=
      joinColon_ne_nil (by simp) (fun q hq => (h q (List.mem_cons_of_mem p hq)).1)
    have hih : (joinColon (p2 :: rest)).getLast? ≠ some ':' :=
      joinColon_last (fun q hq => h q (List.mem_cons_of_mem p hq))
    rw [List.getLast?_append_cons]
    cases hj : joinColon (p2 :: rest) with
    | nil => exact absurd hj htail
    | cons j jt =>
      rw [List.getLast?_cons_cons]
      rw [hj] at hih
      exact hih

theorem joinColon_pairs {ps : List (List Char)}
    (h : ∀ p ∈ ps, p ≠ [] ∧ ':' ∉ p) : colonPairCount (joinColon ps) = 0 := by
  match ps with
  | [] => rfl
  | [p] =>
    exact colonPairCount_zero_of_no_colon (h p (by simp)).2
  | p :: p2 :: rest =>
    show colonPairCount (p ++ ':' :: joinColon (p2 :: rest)) = 0
    have hih : colonPairCount (joinColon (p2 :: rest)) = 0 :=
      joinColon_pairs (fun q hq => h q (List.mem_cons_of_mem p hq))
    have hhead : (joinColon (p2 :: rest)).head? ≠ some ':' :=
      joinColon_head (fun q hq => h q (List.mem_cons_of_mem p hq))
    have hlast : p.getLast? ≠ some ':' := by
      intro he
      exact (h p (by simp)).2 (mem_of_getLast?_eq_some he)
    have hp0 : colonPairCount p = 0 :=
      colonPairCount_zero_of_no_colon (h p (by simp)).2
    rw [colonPairCount_append, hp0, colonPairCount_cons_of_head hhead, hih]
    cases hgl : p.getLast? with
    | none => rfl
    | some a =>
      have ha : a ≠ ':' := fun he => hlast (he ▸ hgl)
      simp only [List.head?_cons]
      rw [if_neg (fun hc => ha hc.1)]

/-- Every string rendered by `renderIpv6` over hex-digit pieces has exactly
one `::` when a run was chosen for compression and none otherwise. -/
theorem renderIpv6_colonPairs (hextets : List Nat) (best : Option (Nat × Nat)) :
    colonPairCount (renderIpv6 hextets best).data =
      (match best with | none => 0 | some _ => 1) := by
  have hpieces : ∀ (l : List Nat), ∀ p ∈ l.map hexStr, p ≠ [] ∧ ':' ∉ p := by
    intro l p hp
    rw [List.mem_map] at hp
    obtain ⟨v, _, hv⟩ := hp
    exact hv ▸ ⟨hexStr_ne_nil v, hexStr_no_colon v⟩
  match best with
  | none =>
    show colonPairCount (joinColon (hextets.map hexStr)) = 0
    exact joinColon_pairs (hpieces hextets)
  | some (bestStart, bestLen) =>
    unfold renderIpv6
    dsimp only
    have hb := hpieces (hextets.take bestStart)
    have ha := hpieces (hextets.drop (bestStart + bestLen))
    set before := (hextets.take bestStart).map hexStr with hbdef
    set after := (hextets.drop (bestStart + bestLen)).map hexStr with hadef
    split
    · decide
    · have hbp : colonPairCount (joinColon before) = 0 := joinColon_pairs hb
      have hap : colonPairCount (joinColon after) = 0 := joinColon_pairs ha
      have hbl : (joinColon before).getLast? ≠ some ':' := joinColon_last hb
      have hah : (joinColon after).head? ≠ some ':' := joinColon_head ha
      split
      · rename_i hleft
        show colonPairCount (':' :: ':' :: joinColon after) = 1
        show (if (':' : Char) = ':' ∧ (':' : Char) = ':' then 1 else 0) +
          colonPairCount (':' :: joinColon after) = 1
        rw [if_pos ⟨rfl, rfl⟩, colonPairCount_cons_of_head hah, hap]
      · split
        · rename_i hleft hright
          show colonPairCount (joinColon before ++ [':', ':']) = 1
          rw [colonPairCount_append, hbp]
          cases hgl : (joinColon before).getLast? with
          | none => decide
          | some a =>
            have hane : a ≠ ':' := fun he => hbl (he ▸ hgl)
            show 0 + colonPairCount [':', ':'] +
              (if a = ':' ∧ ':' = ':' then 1 else 0) = 1
            rw [if_neg (fun hc => hane hc.1)]
            decide
        · rename_i hleft hright
          show colonPairCount (joinColon before ++ ':' :: ':' :: joinColon after) = 1
          rw [colonPairCount_append]
          have h2 : colonPairCount (':' :: ':' :: joinColon after) = 1 := by
            show (if (':' : Char) = ':' ∧ (':' : Char) = ':' then 1 else 0) +
              colonPairCount (':' :: joinColon after) = 1
            rw [if_pos ⟨rfl, rfl⟩, colonPairCount_cons_of_head hah, hap]
          rw [hbp, h2]
          cases hgl : (joinColon before).getLast? with
          | none => rfl
          | some a =>
            have hane : a ≠ ':' := fun he => hbl (he ▸ hgl)
            show 0 + 1 + (if a = ':' ∧ ':' = ':' then 1 else 0) = 1
            rw [if_neg (fun hc => hane hc.1)]

/-- Spec-modelled zero-run length: the number of consecutive zero hextets
starting at index `i` (from the spec's words, for comparison with the
source's scan). -/
def zeroRunLen (hs : List Nat) (i : Nat) : Nat :=
  ((hs.drop i).takeWhile (fun v => v == 0)).length

/-- Spec-modelled run start: index `i` holds a zero hextet and is either
position 0 or preceded by a non-zero hextet. -/
def isZeroRunStart (hs : List Nat) (i : Nat) : Bool :=
  (hs.getD i 1 == 0) && (i == 0 || !(hs.getD (i - 1) 1 == 0))

/-- Spec-modelled chooser, transcribing the claim: among the runs of two or
more consecutive zero hextets, the leftmost one of maximal length (and
`none` when no such run exists). -/
def specBestRun (hs : List Nat) : Option (Nat × Nat) :=
  let good := (((List.range hs.length).filter (fun i => isZeroRunStart hs i)).map
    (fun i => (i, zeroRunLen hs i))).filter (fun r => 2 ≤ r.2)
  let maxLen := good.foldl (fun m r => max m r.2) 0
  good.find? (fun r => r.2 == maxLen)

/-- The zero-pattern of a hextet list: everything the run scan looks at. -/
def zmask (hs : List Nat) : List Bool := hs.map (fun v => v == 0)

/-- A canonical hextet list with a given zero-pattern. -/
def ofPattern (bs : List Bool) : List Nat := bs.map (fun b => if b then 0 else 1)

theorem zmask_ofPattern (bs : List Bool) : zmask (ofPattern bs) = bs := by
  induction bs with
  | nil => rfl
  | cons b t ih =>
    show ((if b then 0 else 1 : Nat) == 0) :: zmask (ofPattern t) = b :: t
    rw [ih]
    cases b <;> rfl

theorem zmask_length (hs : List Nat) : (zmask hs).length = hs.length :=
  List.length_map _ _

theorem zmask_takeWhile (hs : List Nat) :
    (hs.takeWhile (fun v => v == 0)).length =
    ((zmask hs).takeWhile (fun b => b)).length := by
  induction hs with
  | nil => rfl
  | cons h t ih =>
    show (List.takeWhile _ (h :: t)).length = (List.takeWhile _ ((h == 0) :: zmask t)).length
    rw [List.takeWhile_cons, List.takeWhile_cons]
    cases hz : (h == 0) <;> simp [hz, ih]

theorem zmask_dropWhile (hs : List Nat) :
    zmask (hs.dropWhile (fun v => v == 0)) = (zmask hs).dropWhile (fun b => b) := by
  induction hs with
  | nil => rfl
  | cons h t ih =>
    show zmask (List.dropWhile _ (h :: t)) = List.dropWhile _ ((h == 0) :: zmask t)
    rw [List.dropWhile_cons, List.dropWhile_cons]
    cases hz : (h == 0)
    · simp [hz, zmask]
    · simp only [hz]
      simp only [if_pos]
      simpa [zmask] using ih

theorem findBestRunAux_congr :
    ∀ (fuel i : Nat) (best : Option (Nat × Nat)) (hs hs2 : List Nat),
      zmask hs = zmask hs2 →
      findBestRunAux fuel i hs best = findBestRunAux fuel i hs2 best := by
  intro fuel
  induction fuel with
  | zero => intro i best hs hs2 _; rfl
  | succ fuel ih =>
    intro i best hs hs2 hz
    match hs, hs2 with
    | [], [] => rfl
    | [], h2 :: t2 => exact absurd hz (by simp [zmask])
    | h :: t, [] => exact absurd hz (by simp [zmask])
    | h :: t, h2 :: t2 =>
      have hzh : (h == 0) = (h2 == 0) := by
        have := congrArg List.head? hz
        simpa [zmask] using this
      have hzt : zmask t = zmask t2 := by
        have := congrArg List.tail hz
        simpa [zmask] using this
      unfold findBestRunAux
      dsimp only
      have hlen : (t.takeWhile (fun v => v == 0)).length =
          (t2.takeWhile (fun v => v == 0)).length := by
        rw [zmask_takeWhile, zmask_takeWhile, hzt]
      by_cases h0 : h = 0
      · have h20 : h2 = 0 := by
          have : (h == 0) = true := by simp [h0]
          rw [this] at hzh
          simpa using hzh.symm
        rw [if_pos h0, if_pos h20, hlen]
        refine ih _ _ _ _ ?_
        rw [zmask_dropWhile, zmask_dropWhile, hzt]
      · have h20 : h2 ≠ 0 := by
          have : (h == 0) = false := by simp [h0]
          rw [this] at hzh
          simpa using hzh.symm
        rw [if_neg h0, if_neg h20]
        exact ih _ _ _ _ hzt

theorem findBestRun_congr {hs hs2 : List Nat} (h : zmask hs = zmask hs2) :
    findBestRun hs = findBestRun hs2 := by
  have hlen : hs.length = hs2.length := by
    rw [← zmask_length, ← zmask_length, h]
  unfold findBestRun
  rw [hlen]
  exact findBestRunAux_congr _ _ _ _ _ h

theorem zeroRunLen_congr {hs hs2 : List Nat} (h : zmask hs = zmask hs2) (i : Nat) :
    zeroRunLen hs i = zeroRunLen hs2 i := by
  unfold zeroRunLen
  rw [zmask_takeWhile, zmask_takeWhile]
  have hzd : zmask (hs.drop i) = zmask (hs2.drop i) := by
    unfold zmask
    rw [List.map_drop, List.map_drop]
    exact congrArg (List.drop i) h
  rw [hzd]

theorem getD_zmask (hs : List Nat) (i : Nat) :
    (hs.getD i 1 == 0) = (zmask hs).getD i false := by
  induction hs generalizing i with
  | nil => rfl
  | cons h t ih =>
    cases i with
    | zero => rfl
    | succ i => exact ih i

theorem isZeroRunStart_congr {hs hs2 : List Nat} (h : zmask hs = zmask hs2) (i : Nat) :
    isZeroRunStart hs i = isZeroRunStart hs2 i := by
  unfold isZeroRunStart
  rw [getD_zmask, getD_zmask, getD_zmask, getD_zmask, h]

theorem specBestRun_congr {hs hs2 : List Nat} (h : zmask hs = zmask hs2) :
    specBestRun hs = specBestRun hs2 := by
  have hlen : hs.length = hs2.length := by
    rw [← zmask_length, ← zmask_length, h]
  unfold specBestRun
  rw [hlen,
    show (fun i => isZeroRunStart hs i) = (fun i => isZeroRunStart hs2 i) from
      funext (isZeroRunStart_congr h),
    show (fun i => (i, zeroRunLen hs i)) = (fun i => (i, zeroRunLen hs2 i)) from
      funext (fun i => by rw [zeroRunLen_congr h])]

theorem bestRun_eq_spec_on_patterns :
    ∀ b0 b1 b2 b3 b4 b5 b6 b7 : Bool,
      findBestRun (ofPattern [b0, b1, b2, b3, b4, b5, b6, b7]) =
      specBestRun (ofPattern [b0, b1, b2, b3, b4, b5, b6, b7]) := by
  decide

theorem findBestRun_eq_spec {hs : List Nat} (h : hs.length = 8) :
    findBestRun hs = specBestRun hs := by
  match hs, h with
  | [a0, a1, a2, a3, a4, a5, a6, a7], _ =>
    have hz : zmask [a0, a1, a2, a3, a4, a5, a6, a7] =
        zmask (ofPattern [a0 == 0, a1 == 0, a2 == 0, a3 == 0,
          a4 == 0, a5 == 0, a6 == 0, a7 == 0]) := by
      rw [zmask_ofPattern]
      rfl
    rw [findBestRun_congr hz, specBestRun_congr hz,
      bestRun_eq_spec_on_patterns]

theorem buildHextets_length : ∀ (k x : Nat), (buildHextets x k).length = k := by
  intro k
  induction k with
  | zero => intro x; rfl
  | succ k ih =>
    intro x
    show (buildHextets (x >>> 16) k ++ [x &&& 0xffff]).length = k + 1
    rw [List.length_append, ih]
    rfl

theorem hextetsOf_length (n : Nat) : (hextetsOf n).length = 8 :=
  buildHextets_length 8 n

/-- C7: for every uint128 value, `bigIntToIpv6` renders the address
compressing exactly the run chosen by the spec-modelled `specBestRun` — the
leftmost among the maximal-length runs of two or more consecutive zero
hextets, with length-1 runs never compressed (`specBestRun` returns `none`
when no run of length at least 2 exists, and the rendering then contains no
`::` at all); the output contains the `::` marker exactly once when a run
is compressed and never otherwise (so `::` is emitted at most once); and
the all-zero address formats as `::`. -/
theorem c7_ipv6_zero_run_compression (n : Nat) (h : n ≤ 2 ^ 128 - 1) :
    bigIntToIpv6 n = .ok (renderIpv6 (hextetsOf n) (specBestRun (hextetsOf n))) ∧
    (∀ out, bigIntToIpv6 n = .ok out →
      colonPairCount out.data =
        (match specBestRun (hextetsOf n) with | none => 0 | some _ => 1) ∧
      colonPairCount out.data ≤ 1) ∧
    (n = 0 → bigIntToIpv6 n = .ok "::") := by
  have hok : bigIntToIpv6 n =
      .ok (renderIpv6 (hextetsOf n) (findBestRun (hextetsOf n))) := by
    unfold bigIntToIpv6
    rw [if_neg (by omega)]
    rfl
  have hspec := findBestRun_eq_spec (hextetsOf_length n)
  refine ⟨by rw [hok, hspec], ?_, ?_⟩
  · intro out hout
    rw [hok] at hout
    injection hout with hout
    subst hout
    rw [renderIpv6_colonPairs, hspec]
    constructor
    · rfl
    · match specBestRun (hextetsOf n) with
      | none => exact Nat.zero_le 1
      | some _ => exact le_rfl
  · intro h0
    subst h0
    decide

theorem c7_ipv6_zero_run_compression_witness :
    (0x20010DB8000000000000000000000001 : Nat) ≤ 2 ^ 128 - 1 ∧
    bigIntToIpv6 0x20010DB8000000000000000000000001 = .ok "2001:db8::1" ∧
    (0 : Nat) ≤ 2 ^ 128 - 1 ∧ bigIntToIpv6 0 = .ok "::" := by
  refine ⟨by norm_num, ?_, by norm_num, ?_⟩
  · have h := (c7_ipv6_zero_run_compression 0x20010DB8000000000000000000000001
      (by norm_num)).1
    rw [h]
    decide
  · exact (c7_ipv6_zero_run_compression 0 (by norm_num)).2.2 rfl

end SubnetCalc
